import Mathlib

/-!
Verification development for the ESTL fixed-capacity ordered map
(`src/FixedMap`): a shallow embedding of the node arena, the AVL strategy
(`AVLTree.hpp`), the Red-Black strategy (`RedBlackTree.hpp`), the shared
BST mechanics (`IBalancedTree.hpp`) and the public map wrapper
(`FixedMap.hpp`), together with proofs and refutations of the spec's
claims about them.

Modelling conventions:
* Node pointers become arena indices (`Option Nat`, `none` = `nullptr`).
* The C++ subclasses `AVLTreeNode` (with `int height`) and `RBTreeNode`
  (with `bool red`) are modelled by one structure `TNode` carrying both
  tags; each strategy reads and writes only its own tag, exactly as each
  C++ subclass only has its own field.
* Every loop (`while`) becomes a fuel-indexed recursion returning
  `Option`; `none` means the C++ execution did not return normally within
  the fuel: it either dereferenced a null pointer (undefined behaviour),
  threw (`allocateNode`'s `std::out_of_range`), or looped.  Straight-line
  code is total.
* `std::size_t` sizes become `Nat`; the only place a `size_t` can wrap is
  `--m_size` in `erase`, modelled explicitly modulo `2^64`.
* Reads and writes of fields follow the statement order of the C++ source
  so that aliasing between indices behaves exactly as in memory.
-/

namespace ESTL

/-- Arena node slot: `TreeNode` of `IBalancedTree.hpp` together with the
strategy tags of the subclasses `AVLTreeNode` (`height : int`) and
`RBTreeNode` (`red : bool`).  Links are arena indices, `none` = null. -/
structure TNode (K V : Type) where
  key : K
  value : V
  in_use : Bool
  left : Option Nat
  right : Option Nat
  parent : Option Nat
  height : Int
  red : Bool
  deriving DecidableEq, Repr

instance {K V : Type} [Inhabited K] [Inhabited V] : Inhabited (TNode K V) :=
  ⟨⟨default, default, false, none, none, none, 0, false⟩⟩

/-- The state of one balanced-tree strategy instance: the node arena
(`m_nodes`), root pointer, free-list head, size counter and capacity,
shared between `AVLTree` and `RBTree` (both declare exactly these
members). -/
structure TState (K V : Type) where
  nodes : Array (TNode K V)
  root : Option Nat
  freeNodes : Option Nat
  size : Nat
  capacity : Nat
  deriving DecidableEq, Repr

variable {K V : Type} [Inhabited K] [Inhabited V]

/-- Read arena slot `i` (out-of-range reads never occur on the states the
code produces; they return the default slot). -/
def getN (s : TState K V) (i : Nat) : TNode K V :=
  s.nodes.getD i default

/-- Write arena slot `i` through an update of its current contents. -/
def updN (s : TState K V) (i : Nat) (f : TNode K V → TNode K V) : TState K V :=
  { s with nodes := s.nodes.setD i (f (getN s i)) }

def setLeft (s : TState K V) (i : Nat) (o : Option Nat) : TState K V :=
  updN s i fun n => { n with left := o }

def setRight (s : TState K V) (i : Nat) (o : Option Nat) : TState K V :=
  updN s i fun n => { n with right := o }

def setParent (s : TState K V) (i : Nat) (o : Option Nat) : TState K V :=
  updN s i fun n => { n with parent := o }

def setHeight (s : TState K V) (i : Nat) (h : Int) : TState K V :=
  updN s i fun n => { n with height := h }

def setRed (s : TState K V) (i : Nat) (b : Bool) : TState K V :=
  updN s i fun n => { n with red := b }

def setRootP (s : TState K V) (o : Option Nat) : TState K V :=
  { s with root := o }

section Shared

variable [LinearOrder K]

/-- `findNode` of `AVLTree.hpp` (lines 173-185) and `RedBlackTree.hpp`
(lines 207-219): iterative comparator descent that stops at the first
node that is null or not `in_use`.  Outer `none` = fuel exhausted (the
C++ loop did not finish); `some none` = key absent. -/
def findNodeF : Nat → TState K V → K → Option Nat → Option (Option Nat)
  | 0, _, _, _ => none
  | fuel + 1, s, k, cur =>
    match cur with
    | none => some none
    | some c =>
      if ¬(getN s c).in_use then some none
      else if k < (getN s c).key then findNodeF fuel s k (getN s c).left
      else if (getN s c).key < k then findNodeF fuel s k (getN s c).right
      else some (some c)

/-- `minimum(node)` of both strategies: walk `left` while the left child
exists and is `in_use`; null or not-`in_use` argument gives null. -/
def minimumF : Nat → TState K V → Option Nat → Option (Option Nat)
  | 0, _, _ => none
  | fuel + 1, s, cur =>
    match cur with
    | none => some none
    | some c =>
      if ¬(getN s c).in_use then some none
      else
        match (getN s c).left with
        | none => some (some c)
        | some l =>
          if (getN s l).in_use then minimumF fuel s (some l)
          else some (some c)

/-- The upward walk of `next`: climb while the node is its parent's right
child. -/
def nextUpF : Nat → TState K V → Nat → Option (Option Nat)
  | 0, _, _ => none
  | fuel + 1, s, c =>
    match (getN s c).parent with
    | none => some none
    | some p =>
      if (getN s p).right = some c then nextUpF fuel s p
      else some (some p)

/-- `next(node)` of both strategies (`AVLTree.hpp` lines 323-336,
`RedBlackTree.hpp` lines 467-483): in-order successor via right-subtree
minimum or the upward walk. -/
def nextF (fuel : Nat) (s : TState K V) (cur : Option Nat) : Option (Option Nat) :=
  match cur with
  | none => some none
  | some c =>
    if ¬(getN s c).in_use then some none
    else
      match (getN s c).right with
      | some r =>
        if (getN s r).in_use then minimumF fuel s (some r)
        else nextUpF fuel s c
      | none => nextUpF fuel s c

/-- Result of the BST insertion descent shared by `AVLTree::insert`
(lines 227-239) and `RBTree::insert` (lines 345-357): either a duplicate
key was hit, or the loop fell off at a leaf and reports the final
`parent`. -/
inductive DescentRes where
  | dup : DescentRes
  | fell : Nat → DescentRes
  deriving DecidableEq, Repr

/-- The insertion descent loop (`while (current) ...`); it reads keys
without `in_use` checks, exactly as the source does. -/
def insertDescend : Nat → TState K V → K → Nat → Option DescentRes
  | 0, _, _, _ => none
  | fuel + 1, s, k, c =>
    if k < (getN s c).key then
      match (getN s c).left with
      | none => some (.fell c)
      | some l => insertDescend fuel s k l
    else if (getN s c).key < k then
      match (getN s c).right with
      | none => some (.fell c)
      | some r => insertDescend fuel s k r
    else some .dup

/-- `transplant(u, v)` as defined identically in `AVLTree.hpp` (lines
290-302) and `RedBlackTree.hpp` (lines 301-313): replace subtree `u` by
`v` in `u`'s parent (or at the root), then set `v`'s parent. -/
def transplant (s : TState K V) (u : Nat) (v : Option Nat) : TState K V :=
  let s1 :=
    match (getN s u).parent with
    | none => setRootP s v
    | some p =>
      if (getN s p).left = some u then setLeft s p v else setRight s p v
  match v with
  | none => s1
  | some j => setParent s1 j (getN s1 u).parent

/-- The pointer surgery of `rotateLeft(node)`, common to both strategies
(`RedBlackTree.hpp` lines 150-169; `AVLTree.hpp` lines 98-115 before its
height updates).  `none` = the C++ code dereferenced a null
`node->right`. -/
def rotateLeftLinks (s : TState K V) (i : Nat) : Option (TState K V × Nat) :=
  match (getN s i).right with
  | none => none
  | some rc =>
    let s1 := setRight s i (getN s rc).left
    let s2 :=
      match (getN s1 rc).left with
      | none => s1
      | some j => setParent s1 j (some i)
    let s3 := setParent s2 rc (getN s2 i).parent
    let s4 :=
      match (getN s3 i).parent with
      | none => setRootP s3 (some rc)
      | some p =>
        if (getN s3 p).left = some i then setLeft s3 p (some rc)
        else setRight s3 p (some rc)
    let s5 := setLeft s4 rc (some i)
    some (setParent s5 i (some rc), rc)

/-- The pointer surgery of `rotateRight(node)`, mirror image of
`rotateLeftLinks`. -/
def rotateRightLinks (s : TState K V) (i : Nat) : Option (TState K V × Nat) :=
  match (getN s i).left with
  | none => none
  | some lc =>
    let s1 := setLeft s i (getN s lc).right
    let s2 :=
      match (getN s1 lc).right with
      | none => s1
      | some j => setParent s1 j (some i)
    let s3 := setParent s2 lc (getN s2 i).parent
    let s4 :=
      match (getN s3 i).parent with
      | none => setRootP s3 (some lc)
      | some p =>
        if (getN s3 p).right = some i then setRight s3 p (some lc)
        else setLeft s3 p (some lc)
    let s5 := setRight s4 lc (some i)
    some (setParent s5 i (some lc), lc)

end Shared

namespace AVL

variable {K V : Type} [Inhabited K] [Inhabited V]

/-- `AVLTree::getHeight` (line 75): `node && node->in_use ? node->height
: 0`. -/
def getHeight (s : TState K V) (oi : Option Nat) : Int :=
  match oi with
  | none => 0
  | some i => if (getN s i).in_use then (getN s i).height else 0

/-- `AVLTree::balanceFactor` (lines 88-90). -/
def balanceFactor (s : TState K V) (oi : Option Nat) : Int :=
  match oi with
  | none => 0
  | some i => getHeight s (getN s i).left - getHeight s (getN s i).right

/-- `AVLTree::updateHeight` (lines 92-96): refresh the stored height of
an `in_use` node from its children's stored heights. -/
def updateHeightAt (s : TState K V) (i : Nat) : TState K V :=
  if (getN s i).in_use then
    setHeight s i (max (getHeight s (getN s i).left) (getHeight s (getN s i).right) + 1)
  else s

/-- `AVLTree::rotateLeft` (lines 98-119): the shared link surgery, then
`updateHeight(node); updateHeight(rightChild)`. -/
def rotateLeft (s : TState K V) (i : Nat) : Option (TState K V) :=
  match rotateLeftLinks s i with
  | none => none
  | some (s', rc) => some (updateHeightAt (updateHeightAt s' i) rc)

/-- `AVLTree::rotateRight` (lines 121-142). -/
def rotateRight (s : TState K V) (i : Nat) : Option (TState K V) :=
  match rotateRightLinks s i with
  | none => none
  | some (s', lc) => some (updateHeightAt (updateHeightAt s' i) lc)

/-- `AVLTree::allocateNode` (lines 55-65).  `none` = the C++ code threw
`std::out_of_range` (no free node). -/
def allocateNode (s : TState K V) : Option (TState K V × Nat) :=
  match s.freeNodes with
  | none => none
  | some h =>
    let s1 := { s with freeNodes := (getN s h).right }
    some (updN s1 h fun n =>
      { n with right := none, left := none, parent := none, height := 1, in_use := true }, h)

/-- `AVLTree::deallocateNode` (lines 67-73): reset the node and push it
onto the free list. -/
def deallocateNode (s : TState K V) (i : Nat) : TState K V :=
  let s1 := updN s i fun n =>
    { n with in_use := false, height := 0, left := none, parent := none, right := s.freeNodes }
  { s1 with freeNodes := some i }

/-- One iteration body plus the loop of `AVLTree::balance` (lines
153-171): walk to the root, refreshing heights and rotating where the
balance factor leaves `[-1, 1]`. -/
def balance [LinearOrder K] : Nat → TState K V → Option Nat → Option (TState K V)
  | 0, _, _ => none
  | _ + 1, s, none => some s
  | fuel + 1, s, some i =>
    let s1 := updateHeightAt s i
    let bf := balanceFactor s1 (some i)
    let s2? : Option (TState K V) :=
      if bf > 1 then
        let afterInner : Option (TState K V) :=
          if balanceFactor s1 (getN s1 i).left < 0 then
            match (getN s1 i).left with
            | none => none
            | some l => rotateLeft s1 l
          else some s1
        match afterInner with
        | none => none
        | some sA => rotateRight sA i
      else if bf < -1 then
        let afterInner : Option (TState K V) :=
          if balanceFactor s1 (getN s1 i).right > 0 then
            match (getN s1 i).right with
            | none => none
            | some r => rotateRight s1 r
          else some s1
        match afterInner with
        | none => none
        | some sA => rotateLeft sA i
      else some s1
    match s2? with
    | none => none
    | some s2 => balance fuel s2 (getN s2 i).parent

/-- `AVLTree::insert` (lines 212-251). -/
def insert [LinearOrder K] (fuel : Nat) (s : TState K V) (k : K) (v : V) :
    Option (Bool × TState K V) :=
  if s.size ≥ s.capacity then some (false, s)
  else
    match allocateNode s with
    | none => none
    | some (s1, h) =>
      let s2 := updN s1 h fun n => { n with key := k, value := v }
      match s2.root with
      | none => some (true, { setRootP s2 (some h) with size := s2.size + 1 })
      | some r =>
        match insertDescend fuel s2 k r with
        | none => none
        | some .dup => some (false, deallocateNode s2 h)
        | some (.fell p) =>
          let s3 := setParent s2 h (some p)
          let s4 :=
            if k < (getN s3 p).key then setLeft s3 p (some h)
            else setRight s3 p (some h)
          match balance fuel s4 (getN s4 h).parent with
          | none => none
          | some s5 => some (true, { s5 with size := s5.size + 1 })

/-- `--m_size` on a `std::size_t`: wraps at zero. -/
def decSize (n : Nat) : Nat :=
  if n = 0 then 2 ^ 64 - 1 else n - 1

/-- `AVLTree::erase` (lines 253-288). -/
def erase [LinearOrder K] (fuel : Nat) (s : TState K V) (k : K) :
    Option (Bool × TState K V) :=
  match findNodeF fuel s k s.root with
  | none => none
  | some none => some (false, s)
  | some (some i) =>
    let parent0 := (getN s i).parent
    let leftGone :=
      match (getN s i).left with
      | none => true
      | some l => ¬(getN s l).in_use
    let rightGone :=
      match (getN s i).right with
      | none => true
      | some r => ¬(getN s r).in_use
    let surgery? : Option (TState K V × Option Nat) :=
      if leftGone then some (transplant s i (getN s i).right, parent0)
      else if rightGone then some (transplant s i (getN s i).left, parent0)
      else
        match minimumF fuel s (getN s i).right with
        | none => none
        | some none => none
        | some (some m) =>
          let par := (getN s m).parent
          let child := (getN s m).right
          let sA? : Option (TState K V) :=
            if (getN s m).parent = some i then
              match child with
              | none => some s
              | some c => some (setParent s c (some m))
            else
              let sB := transplant s m (getN s m).right
              let sC := setRight sB m (getN sB i).right
              match (getN sC m).right with
              | none => none
              | some j => some (setParent sC j (some m))
          match sA? with
          | none => none
          | some sA =>
            let sD := transplant sA i (some m)
            let sE := setLeft sD m (getN sD i).left
            match (getN sE m).left with
            | none => none
            | some j => some (setParent sE j (some m), par)
    match surgery? with
    | none => none
    | some (sF, par) =>
      let sG := deallocateNode sF i
      match balance fuel sG par with
      | none => none
      | some sH => some (true, { sH with size := decSize sH.size })

end AVL

namespace RB

variable {K V : Type} [Inhabited K] [Inhabited V]

/-- `RBTree::allocateNode` (lines 57-66): pop the free head, clear links,
set `red = in_use = true`. -/
def allocateNode (s : TState K V) : Option (TState K V × Nat) :=
  match s.freeNodes with
  | none => none
  | some h =>
    let s1 := { s with freeNodes := (getN s h).right }
    some (updN s1 h fun n =>
      { n with right := none, left := none, parent := none, red := true, in_use := true }, h)

/-- `RBTree::deallocateNode` (lines 68-73). -/
def deallocateNode (s : TState K V) (i : Nat) : TState K V :=
  let s1 := updN s i fun n =>
    { n with in_use := false, red := false, left := none, parent := none, right := s.freeNodes }
  { s1 with freeNodes := some i }

/-- The body of the `balanceHelper` lambda inside
`RBTree::balanceAfterInsertion` (lines 92-122).  The lambda takes `node`
by value, so its reassignments of `node` are local to one invocation;
they are modelled by rebinding `j`.  `none` = a null-pointer dereference
in the C++ body. -/
def balInsHelper (s : TState K V) (i : Nat) (uncle : Option Nat) (isParentLeft : Bool) :
    Option (TState K V) :=
  let uncleRed :=
    match uncle with
    | none => false
    | some u => (getN s u).red
  if uncleRed then
    match uncle with
    | none => none
    | some u =>
      let s1 := setRed s u false
      match (getN s1 i).parent with
      | none => none
      | some p =>
        let s2 := setRed s1 p false
        match (getN s2 p).parent with
        | none => none
        | some gp => some (setRed s2 gp true)
  else
    match (getN s i).parent with
    | none => none
    | some p =>
      let triangle :=
        if isParentLeft then (getN s p).right = some i else (getN s p).left = some i
      let afterTri? : Option (TState K V × Nat) :=
        if triangle then
          match (if isParentLeft then rotateLeftLinks s p else rotateRightLinks s p) with
          | none => none
          | some (s', _) => some (s', p)
        else some (s, i)
      match afterTri? with
      | none => none
      | some (sT, j) =>
        match (getN sT j).parent with
        | none => none
        | some p2 =>
          let sU := setRed sT p2 false
          match (getN sU j).parent with
          | none => none
          | some p3 =>
            match (getN sU p3).parent with
            | none => none
            | some gp2 =>
              let sV := setRed sU gp2 true
              match (getN sV j).parent with
              | none => none
              | some p4 =>
                match (getN sV p4).parent with
                | none => none
                | some gp3 =>
                  match (if isParentLeft then rotateRightLinks sV gp3
                         else rotateLeftLinks sV gp3) with
                  | none => none
                  | some (sW, _) => some sW

/-- The loop of `RBTree::balanceAfterInsertion` (lines 125-132) followed
by `m_root->red = false`.  Because the lambda receives `node` by value,
the loop variable `node` never changes across iterations; the loop
re-tests the same node against its (possibly rewritten) parent. -/
def balanceAfterInsertion : Nat → TState K V → Nat → Option (TState K V)
  | 0, _, _ => none
  | fuel + 1, s, i =>
    if s.root = some i then
      match s.root with
      | none => none
      | some r => some (setRed s r false)
    else
      match (getN s i).parent with
      | none => none
      | some p =>
        if (getN s p).red then
          match (getN s p).parent with
          | none => none
          | some gp =>
            let step? :=
              if (getN s gp).left = some p then
                balInsHelper s i ((getN s gp).right) true
              else
                balInsHelper s i ((getN s gp).left) false
            match step? with
            | none => none
            | some s' => balanceAfterInsertion fuel s' i
        else
          match s.root with
          | none => none
          | some r => some (setRed s r false)

/-- `RBTree::insert` (lines 329-369). -/
def insert [LinearOrder K] (fuel : Nat) (s : TState K V) (k : K) (v : V) :
    Option (Bool × TState K V) :=
  if s.size ≥ s.capacity then some (false, s)
  else
    match allocateNode s with
    | none => none
    | some (s1, h) =>
      let s2 := updN s1 h fun n => { n with key := k, value := v }
      match s2.root with
      | none =>
        let s3 := setRootP s2 (some h)
        let s4 := setRed s3 h false
        some (true, { s4 with size := s4.size + 1 })
      | some r =>
        match insertDescend fuel s2 k r with
        | none => none
        | some .dup => some (false, deallocateNode s2 h)
        | some (.fell p) =>
          let s3 := setParent s2 h (some p)
          let s4 :=
            if k < (getN s3 p).key then setLeft s3 p (some h)
            else setRight s3 p (some h)
          match balanceAfterInsertion fuel s4 h with
          | none => none
          | some s5 => some (true, { s5 with size := s5.size + 1 })

/-- The body of the `balanceHelper` lambda inside
`RBTree::balanceAfterDeletion` (lines 242-269).  Both conditional
expressions `c ? x->red : y->red = false` (lines 257 and 265) parse as
`c ? (x->red) : (y->red = false)`: when `c` holds, the statement only
reads (and may crash on) `x->red` and writes nothing.  The lambda's
final assignments to its by-value `node` parameter have no effect on the
caller. -/
def balDelHelper (s : TState K V) (i : Nat) (sib0 : Option Nat) (isSibLeft : Bool) :
    Option (TState K V) :=
  let sibRed :=
    match sib0 with
    | none => false
    | some sb => (getN s sb).red
  let case1? : Option (TState K V × Option Nat) :=
    if sibRed then
      match sib0 with
      | none => none
      | some sb =>
        let s1 := setRed s sb false
        match (getN s1 i).parent with
        | none => none
        | some p =>
          let s2 := setRed s1 p true
          match (getN s2 i).parent with
          | none => none
          | some p2 =>
            match (if isSibLeft then rotateRightLinks s2 p2 else rotateLeftLinks s2 p2) with
            | none => none
            | some (s3, _) =>
              match (getN s3 i).parent with
              | none => none
              | some p3 =>
                some (s3, if isSibLeft then (getN s3 p3).left else (getN s3 p3).right)
    else some (s, sib0)
  match case1? with
  | none => none
  | some (sA, sib1) =>
    match sib1 with
    | none => none
    | some sb =>
      let leftBlack : Bool :=
        match (getN sA sb).left with
        | none => true
        | some l => !(getN sA l).red
      let rightBlack : Bool :=
        match (getN sA sb).right with
        | none => true
        | some r => !(getN sA r).red
      if leftBlack && rightBlack then some (setRed sA sb true)
      else
        let case3 := if isSibLeft then leftBlack else rightBlack
        let afterC3? : Option (TState K V × Nat) :=
          if case3 then
            let write? : Option (TState K V) :=
              if isSibLeft then
                match (getN sA sb).right with
                | none => none
                | some _ => some sA
              else
                match (getN sA sb).left with
                | none => none
                | some l => some (setRed sA l false)
            match write? with
            | none => none
            | some sB =>
              let sC := setRed sB sb true
              match (if isSibLeft then rotateLeftLinks sC sb else rotateRightLinks sC sb) with
              | none => none
              | some (sD, _) =>
                match (getN sD i).parent with
                | none => none
                | some p =>
                  match (if isSibLeft then (getN sD p).left else (getN sD p).right) with
                  | none => none
                  | some sb' => some (sD, sb')
          else some (sA, sb)
        match afterC3? with
        | none => none
        | some (sE, sb2) =>
          match (getN sE i).parent with
          | none => none
          | some p =>
            let sF := setRed sE sb2 ((getN sE p).red)
            let sG := setRed sF p false
            let write2? : Option (TState K V) :=
              if isSibLeft then
                match (getN sG sb2).left with
                | none => none
                | some _ => some sG
              else
                match (getN sG sb2).right with
                | none => none
                | some r => some (setRed sG r false)
            match write2? with
            | none => none
            | some sH =>
              match (getN sH i).parent with
              | none => none
              | some p2 =>
                match (if isSibLeft then rotateRightLinks sH p2 else rotateLeftLinks sH p2) with
                | none => none
                | some (sI, _) => some sI

/-- The loop of `RBTree::balanceAfterDeletion` (lines 271-281) followed
by `if (node) node->red = false`.  As with insertion, the helper's
by-value `node` never changes, so every iteration works on the same
node. -/
def balanceAfterDeletion : Nat → TState K V → Nat → Option (TState K V)
  | 0, _, _ => none
  | fuel + 1, s, i =>
    if s.root ≠ some i ∧ ¬(getN s i).red then
      match (getN s i).parent with
      | none => none
      | some p =>
        let step? :=
          if (getN s p).left = some i then
            balDelHelper s i ((getN s p).right) false
          else
            balDelHelper s i ((getN s p).left) true
        match step? with
        | none => none
        | some s' => balanceAfterDeletion fuel s' i
    else some (setRed s i false)

/-- `RBTree::erase` (lines 371-413). -/
def erase [LinearOrder K] (fuel : Nat) (s : TState K V) (k : K) :
    Option (Bool × TState K V) :=
  match findNodeF fuel s k s.root with
  | none => none
  | some none => some (false, s)
  | some (some i) =>
    let surgery? : Option (TState K V × Option Nat × Bool) :=
      if (getN s i).left = none then
        some (transplant s i (getN s i).right, (getN s i).right, (getN s i).red)
      else if (getN s i).right = none then
        some (transplant s i (getN s i).left, (getN s i).left, (getN s i).red)
      else
        match minimumF fuel s (getN s i).right with
        | none => none
        | some none => none
        | some (some m) =>
          let origRed := (getN s m).red
          let child := (getN s m).right
          let sA? : Option (TState K V) :=
            if (getN s m).parent = some i then
              match child with
              | none => some s
              | some c => some (setParent s c (some m))
            else
              let sB := transplant s m (getN s m).right
              let sC := setRight sB m (getN sB i).right
              match (getN sC m).right with
              | none => none
              | some j => some (setParent sC j (some m))
          match sA? with
          | none => none
          | some sA =>
            let sD := transplant sA i (some m)
            let sE := setLeft sD m (getN sD i).left
            match (getN sE m).left with
            | none => none
            | some j =>
              let sF := setParent sE j (some m)
              some (setRed sF m ((getN sF i).red), child, origRed)
    match surgery? with
    | none => none
    | some (sG, child, origRed) =>
      let sH := deallocateNode sG i
      let fixed? : Option (TState K V) :=
        if ¬origRed then
          match child with
          | none => some sH
          | some c => balanceAfterDeletion fuel sH c
        else some sH
      match fixed? with
      | none => none
      | some sI => some (true, { sI with size := AVL.decSize sI.size })

end RB

/-- `enum TreeType` of `BalancedTreeFactory.hpp`. -/
inductive TreeType where
  | RedBlack : TreeType
  | AVL : TreeType
  deriving DecidableEq, Repr

variable {K V : Type} [Inhabited K] [Inhabited V]

/-- The arena as the strategy constructors build it (`AVLTree.hpp` lines
199-210, `RedBlackTree.hpp` lines 316-327): all slots unused with the
free list threaded through `right` in index order.  The C++ loop assumes
`capacity ≥ 1`; the uninitialised union tag is modelled as `0`/`false`. -/
def mkState (K V : Type) [Inhabited K] [Inhabited V] (cap : Nat) : TState K V :=
  { nodes := Array.ofFn fun i : Fin cap =>
      { (default : TNode K V) with right := if i.1 + 1 < cap then some (i.1 + 1) else none }
    root := none
    freeNodes := some 0
    size := 0
    capacity := cap }

/-- Dispatch of the strategy's virtual `insert`, as selected by
`BalancedTreeFactory::createTree`. -/
def treeInsert [LinearOrder K] (t : TreeType) (fuel : Nat) (s : TState K V) (k : K) (v : V) :
    Option (Bool × TState K V) :=
  match t with
  | .RedBlack => RB.insert fuel s k v
  | .AVL => AVL.insert fuel s k v

/-- Dispatch of the strategy's virtual `erase`. -/
def treeErase [LinearOrder K] (t : TreeType) (fuel : Nat) (s : TState K V) (k : K) :
    Option (Bool × TState K V) :=
  match t with
  | .RedBlack => RB.erase fuel s k
  | .AVL => AVL.erase fuel s k

/-- `ESTL::FixedMap`: one strategy instance plus the stored capacity. -/
structure FMap (K V : Type) where
  strat : TreeType
  st : TState K V
  capacity : Nat
  deriving Repr

/-- A freshly constructed map (`CTMap` / `RTMap` construction path). -/
def mkMap (K V : Type) [Inhabited K] [Inhabited V] (t : TreeType) (cap : Nat) : FMap K V :=
  { strat := t, st := mkState K V cap, capacity := cap }

/-- `FixedMap::insert` (lines 45-50). -/
def mapInsert [LinearOrder K] (fuel : Nat) (m : FMap K V) (k : K) (v : V) :
    Option (Bool × FMap K V) :=
  match treeInsert m.strat fuel m.st k v with
  | none => none
  | some (b, st') => some (b, { m with st := st' })

/-- `FixedMap::erase` (lines 52-57). -/
def mapErase [LinearOrder K] (fuel : Nat) (m : FMap K V) (k : K) :
    Option (Bool × FMap K V) :=
  match treeErase m.strat fuel m.st k with
  | none => none
  | some (b, st') => some (b, { m with st := st' })

/-- `FixedMap::find` (lines 59-64): both strategies' `find` return a
pointer into the found node; modelled as the found value.  Outer `none`
= the descent did not terminate. -/
def mapFind [LinearOrder K] (fuel : Nat) (m : FMap K V) (k : K) : Option (Option V) :=
  match findNodeF fuel m.st k m.st.root with
  | none => none
  | some none => some none
  | some (some i) => some (some (getN m.st i).value)

/-- `FixedMap::size` (lines 119-124). -/
def mapSize (m : FMap K V) : Nat := m.st.size

/-- `FixedMap::operator[]` (lines 66-72): `find`, on miss `insert(key,
Value())` and `*find(key)`.  The final `some none` case of the second
`find` is the C++ dereference of a null pointer: `none`. -/
def mapIndex [LinearOrder K] (fuel : Nat) (m : FMap K V) (k : K) : Option (V × FMap K V) :=
  match mapFind fuel m k with
  | none => none
  | some (some v) => some (v, m)
  | some none =>
    match mapInsert fuel m k default with
    | none => none
    | some (_, m') =>
      match mapFind fuel m' k with
      | none => none
      | some (some v) => some (v, m')
      | some none => none

/-- `FixedMap::insert_or_assign` (lines 82-93): assign through the found
pointer, else insert. -/
def mapInsertOrAssign [LinearOrder K] (fuel : Nat) (m : FMap K V) (k : K) (v : V) :
    Option (Bool × FMap K V) :=
  match findNodeF fuel m.st k m.st.root with
  | none => none
  | some (some i) =>
    some (false, { m with st := updN m.st i fun n => { n with value := v } })
  | some none =>
    match treeInsert m.strat fuel m.st k v with
    | none => none
    | some (b, st') => some (b, { m with st := st' })

/-- `FixedMap::extract` (lines 96-107).  Outer `none` = crash or fuel;
`some none` = the `std::out_of_range("Key not found")` throw; the
`erase`'s boolean result is discarded, as in the source. -/
def mapExtract [LinearOrder K] (fuel : Nat) (m : FMap K V) (k : K) :
    Option (Option ((K × V) × FMap K V)) :=
  match mapFind fuel m k with
  | none => none
  | some none => some none
  | some (some v) =>
    match treeErase m.strat fuel m.st k with
    | none => none
    | some (_, st') => some (some ((k, v), { m with st := st' }))

/-- The loop of `FixedMap::merge` (lines 110-117): iterate `other` with
the bidirectional iterator (dereference throws on a dead node) and
`insert` each pair into `this`; `other` is never written. -/
def mergeLoop [LinearOrder K] :
    Nat → Nat → FMap K V → FMap K V → Option Nat → Option (FMap K V)
  | 0, _, _, _, _ => none
  | _ + 1, _, dst, _, none => some dst
  | fuel + 1, stepFuel, dst, other, some c =>
    if ¬(getN other.st c).in_use then none
    else
      match mapInsert stepFuel dst ((getN other.st c).key) ((getN other.st c).value) with
      | none => none
      | some (_, dst') =>
        match nextF stepFuel other.st (some c) with
        | none => none
        | some cur' => mergeLoop fuel stepFuel dst' other cur'

/-- `FixedMap::merge` (lines 110-117): `begin()` is the tree minimum. -/
def mapMerge [LinearOrder K] (fuel : Nat) (dst other : FMap K V) : Option (FMap K V) :=
  match minimumF fuel other.st other.st.root with
  | none => none
  | some cur0 => mergeLoop fuel fuel dst other cur0

/-- C1's AVL invariant at one occupied node, exactly as the spec states
it: the stored heights of the children (an absent or unused child
counting 0, as in `AVLTree::getHeight`) differ by at most one, and the
node's stored height is one more than their maximum. -/
def avlNodeOk (s : TState K V) (i : Nat) : Bool :=
  if (getN s i).in_use then
    let hl := AVL.getHeight s (getN s i).left
    let hr := AVL.getHeight s (getN s i).right
    decide ((hl - hr).natAbs ≤ 1) && decide ((getN s i).height = 1 + max hl hr)
  else true

/-- C1's invariant over the whole arena: every occupied node satisfies
`avlNodeOk`. -/
def avlInv (s : TState K V) : Bool :=
  (List.range s.nodes.size).all fun i => avlNodeOk s i

/-- Black-node count of every root-to-absent-leaf path of the subtree at
`oi`; `none` when two paths disagree (or the structure exceeds the
fuel). -/
def blackHeightF : Nat → TState K V → Option Nat → Option Nat
  | 0, _, _ => none
  | _ + 1, _, none => some 0
  | fuel + 1, s, some i =>
    if ¬(getN s i).in_use then some 0
    else
      match blackHeightF fuel s (getN s i).left, blackHeightF fuel s (getN s i).right with
      | some bl, some br =>
        if bl = br then some (bl + (if (getN s i).red then 0 else 1)) else none
      | _, _ => none

/-- C2's Red-Black invariant: root black, no red node with a red child,
and all root-to-absent-leaf paths carry the same number of black
nodes. -/
def rbInv (fuel : Nat) (s : TState K V) : Bool :=
  (match s.root with
   | none => true
   | some r => !(getN s r).red) &&
  ((List.range s.nodes.size).all fun i =>
    if (getN s i).in_use && (getN s i).red then
      (match (getN s i).left with
       | none => true
       | some l => !((getN s l).in_use && (getN s l).red)) &&
      (match (getN s i).right with
       | none => true
       | some r => !((getN s r).in_use && (getN s r).red))
    else true) &&
  (blackHeightF fuel s s.root).isSome

/-- One public mutating map operation, for reasoning about arbitrary
operation sequences. -/
inductive MapOp (K V : Type) where
  | ins : K → V → MapOp K V
  | del : K → MapOp K V
  deriving DecidableEq, Repr

/-- Run a sequence of `insert`/`erase` calls, discarding their boolean
results. -/
def runOps [LinearOrder K] (fuel : Nat) : FMap K V → List (MapOp K V) → Option (FMap K V)
  | m, [] => some m
  | m, op :: rest =>
    match op with
    | .ins k v =>
      match mapInsert fuel m k v with
      | none => none
      | some (_, m') => runOps fuel m' rest
    | .del k =>
      match mapErase fuel m k with
      | none => none
      | some (_, m') => runOps fuel m' rest

/-- True (recursively computed) height of the subtree hanging at `oi`,
an absent or unused child counting 0 — the height function the spec's
AVL invariant speaks about. -/
def realHeightF : Nat → TState K V → Option Nat → Int
  | 0, _, _ => 0
  | _ + 1, _, none => 0
  | fuel + 1, s, some i =>
    if ¬(getN s i).in_use then 0
    else 1 + max (realHeightF fuel s (getN s i).left) (realHeightF fuel s (getN s i).right)

/-- Structural AVL balance: at every occupied node the true heights of
the two subtrees differ by at most one. -/
def realBalanced (s : TState K V) : Bool :=
  (List.range s.nodes.size).all fun i =>
    if (getN s i).in_use then
      ((realHeightF s.nodes.size s (getN s i).left) -
        (realHeightF s.nodes.size s (getN s i).right)).natAbs ≤ 1
    else true

/-- The public `FixedMap` operations named by the spec's concurrency
section (including iteration start, `begin`). -/
inductive PubOp where
  | insertOp : PubOp
  | eraseOp : PubOp
  | findOp : PubOp
  | clearOp : PubOp
  | extractOp : PubOp
  | mergeOp : PubOp
  | sizeOp : PubOp
  | emptyOp : PubOp
  | beginOp : PubOp
  deriving DecidableEq, Repr

/-- Which map instance's `m_mutex` a lock acquisition targets: the
receiver (`this`) of the public call, or the other map passed to
`merge`. -/
inductive WhichLock where
  | selfLock : WhichLock
  | otherLock : WhichLock
  deriving DecidableEq, Repr

/-- The locks each public operation of `FixedMap` acquires at entry and
holds for the whole call, transcribed from `FixedMap.hpp`
(`ENABLE_THREAD_SAFETY` on): `insert` 47, `erase` 54, `find` 61,
`clear` 76, `extract` 98, `size` 121, `empty` 128 each take
`std::lock_guard(m_mutex)`; `merge` 112 takes only
`other.m_mutex`; `begin` 184 takes no lock at all. -/
def entryLocks : PubOp → List WhichLock
  | .insertOp => [.selfLock]
  | .eraseOp => [.selfLock]
  | .findOp => [.selfLock]
  | .clearOp => [.selfLock]
  | .extractOp => [.selfLock]
  | .mergeOp => [.otherLock]
  | .sizeOp => [.selfLock]
  | .emptyOp => [.selfLock]
  | .beginOp => []

/-- Locks acquired again on a call path that already holds the entry
locks: only `merge` does this, re-entering `this->insert` (line 115),
which locks the receiver's `m_mutex` (line 47) while `other.m_mutex` is
held.  Strategy and arena internals contain no locking. -/
def nestedLocks : PubOp → List WhichLock
  | .mergeOp => [.selfLock]
  | _ => []

/-- AVL run for C1: insert 2, 1, 3 into a capacity-4 AVL map, then
erase 2. -/
def c1ops : List (MapOp Nat Nat) := [.ins 2 20, .ins 1 10, .ins 3 30, .del 2]

/-- AVL run for C1 exhibiting a genuine structural imbalance: seven
inserts and one erase whose removed node's in-order successor is its own
right child. -/
def c1ops' : List (MapOp Nat Nat) :=
  [.ins 4 40, .ins 8 80, .ins 3 30, .ins 5 50, .ins 7 70, .ins 2 20, .ins 6 60, .del 7]

/-- RB run for C2: eight ascending inserts. -/
def c2ops : List (MapOp Nat Nat) :=
  [.ins 1 1, .ins 2 2, .ins 3 3, .ins 4 4, .ins 5 5, .ins 6 6, .ins 7 7, .ins 8 8]

/-- RB run for C2: the spec's own Scenario-C shape plus one more
insert, then an erase of a black node whose replacing child is null. -/
def c2ops' : List (MapOp Nat Nat) := [.ins 10 1, .ins 20 2, .ins 30 3, .ins 40 4, .del 10]

/-- Mixed run for C3's witness: two inserts filling a capacity-2 map,
one erase, one re-insert. -/
def c3ops : List (MapOp Nat Nat) := [.ins 1 10, .ins 2 20, .del 1, .ins 3 30]

/-- The map the C3 witness run ends in. -/
def c3m : FMap Nat Nat :=
  (runOps 16 (mkMap Nat Nat .RedBlack 2) c3ops).getD (mkMap Nat Nat .RedBlack 2)

/-- RB run for C4: nine operations reaching a seven-node all-slots-used
map on which `erase(2)` crashes. -/
def c4prep : List (MapOp Nat Nat) :=
  [.ins 2 102, .ins 1 101, .ins 6 106, .ins 3 103, .ins 5 105, .ins 7 107,
   .del 3, .ins 3 103, .ins 4 104]

/-- C7 destination at capacity: a capacity-1 map holding key 2. -/
def c7dst : Option (FMap Nat Nat) :=
  runOps 50 (mkMap Nat Nat .RedBlack 1) [.ins 2 200]

/-- C7 source: a capacity-1 map holding key 1, absent from the
destination. -/
def c7src : Option (FMap Nat Nat) :=
  runOps 50 (mkMap Nat Nat .RedBlack 1) [.ins 1 100]

/-- C7 Scenario-D maps: A = 1 ↦ "one", 2 ↦ "two"; B = 2 ↦ "TWO",
3 ↦ "three" with room for the merge. -/
def c7A : Option (FMap Nat String) :=
  runOps 50 (mkMap Nat String .RedBlack 2) [.ins 1 "one", .ins 2 "two"]

/-- C7 Scenario-D destination. -/
def c7B : Option (FMap Nat String) :=
  runOps 50 (mkMap Nat String .RedBlack 4) [.ins 2 "TWO", .ins 3 "three"]

/-- C9 map: a full capacity-1 map holding key 1 with value 100. -/
def c9full : Option (FMap Nat Nat) :=
  runOps 50 (mkMap Nat Nat .RedBlack 1) [.ins 1 100]

/-- C9 map with room: capacity 2 holding key 1. -/
def c9room : Option (FMap Nat Nat) :=
  runOps 50 (mkMap Nat Nat .RedBlack 2) [.ins 1 100]

/-- C5 witness map: a capacity-2 Red-Black map holding key 1 with value
101. -/
def c5map : FMap Nat Nat :=
  ((mapInsert 50 (mkMap Nat Nat .RedBlack 2) 1 101).map (·.2)).getD
    (mkMap Nat Nat .RedBlack 2)

/-- Index-labelled binary tree: the shape of the occupied region of the
arena, used to state which states are well-formed search trees. -/
inductive ITree where
  | nil : ITree
  | node : ITree → Nat → ITree → ITree
  deriving DecidableEq, Repr

/-- In-order list of arena indices of an `ITree`. -/
def inorder : ITree → List Nat
  | .nil => []
  | .node l i r => inorder l ++ i :: inorder r

/-- `repB s t oi par`: the pointer structure hanging at `oi` (whose
parent pointer must be `par`) is exactly the tree `t`: every `t`-node is
an occupied in-bounds slot whose `left`/`right`/`parent` fields mirror
the tree, and absent children are null. -/
def repB (s : TState K V) : ITree → Option Nat → Option Nat → Bool
  | .nil, oi, _ => decide (oi = none)
  | .node l i r, oi, par =>
    decide (oi = some i) && decide (i < s.nodes.size) && (getN s i).in_use &&
    decide ((getN s i).parent = par) &&
    repB s l (getN s i).left (some i) && repB s r (getN s i).right (some i)

/-- Index of the leftmost node of a tree. -/
def firstIdx : ITree → Option Nat
  | .nil => none
  | .node l i _ =>
    match firstIdx l with
    | none => some i
    | some j => some j

/-- Index of the rightmost node of a tree. -/
def lastIdx : ITree → Option Nat
  | .nil => none
  | .node _ i r =>
    match lastIdx r with
    | none => some i
    | some j => some j

/-- The iterator walk: repeatedly call `next`, collecting the visited
keys; `steps` bounds the number of visited nodes, `stepFuel` the work of
each `next` call. -/
def iterWalk (stepFuel : Nat) (s : TState K V) [LinearOrder K] :
    Nat → Option Nat → Option (List K)
  | 0, cur =>
    match cur with
    | none => some []
    | some _ => none
  | steps + 1, cur =>
    match cur with
    | none => some []
    | some c =>
      match nextF stepFuel s (some c) with
      | none => none
      | some nxt => (iterWalk stepFuel s steps nxt).map ((getN s c).key :: ·)

/-- The in-order traversal of §8 of the spec: `minimum()`, then repeated
`next()` until the end, yielding the visited keys. -/
def mapTraversal [LinearOrder K] (stepFuel steps : Nat) (m : FMap K V) : Option (List K) :=
  match minimumF stepFuel m.st m.st.root with
  | none => none
  | some c0 => iterWalk stepFuel m.st steps c0

/-- C6 witness map: Red-Black, capacity 4, keys 2, 1, 3 (slots 0, 1, 2). -/
def c6map : FMap Nat Nat :=
  (runOps 50 (mkMap Nat Nat .RedBlack 4) [.ins 2 20, .ins 1 10, .ins 3 30]).getD
    (mkMap Nat Nat .RedBlack 4)

/-- The tree `c6map`'s arena holds: slot 0 (key 2) at the root, slot 1
(key 1) left, slot 2 (key 3) right. -/
def c6tree : ITree := .node (.node .nil 1 .nil) 0 (.node .nil 2 .nil)

/-- Number of occupied arena slots.  `insert`/`erase` keep `m_size`
synchronised with it; the balancing fix-ups never touch `in_use`. -/
def inUseCount (s : TState K V) : Nat :=
  s.nodes.toList.countP fun n => n.in_use

/-- The C3 induction invariant: the size counter is an upper bound for
the number of occupied slots and stays within the capacity. -/
def SizeInv (s : TState K V) : Prop :=
  inUseCount s ≤ s.size ∧ s.size ≤ s.capacity

/-- What the balancing fix-ups leave untouched: occupancy count, size
counter and capacity. -/
def ObsPres (s s' : TState K V) : Prop :=
  inUseCount s' = inUseCount s ∧ s'.size = s.size ∧ s'.capacity = s.capacity ∧
  ∀ j, (getN s' j).in_use = (getN s j).in_use

/-! ## Helper lemmas about the arena primitives -/

theorem getN_updN_self (s : TState K V) (i : Nat) (f : TNode K V → TNode K V)
    (h : i < s.nodes.size) : getN (updN s i f) i = f (getN s i) := by
  simp [updN, getN, Array.setD, Array.getD, h]

theorem getN_updN_ne (s : TState K V) (i : Nat) (f : TNode K V → TNode K V)
    (j : Nat) (h : j ≠ i) : getN (updN s i f) j = getN s j := by
  unfold updN getN
  by_cases hi : i < s.nodes.size
  · simp only [Array.setD, dif_pos hi]
    by_cases hj : j < s.nodes.size
    · simp [Array.getD, hj, Array.getElem_set, h, Ne.symm h]
    · simp [Array.getD, hj]
  · simp [Array.setD, dif_neg hi]

theorem updN_root (s : TState K V) (i : Nat) (f : TNode K V → TNode K V) :
    (updN s i f).root = s.root := rfl

theorem updN_freeNodes (s : TState K V) (i : Nat) (f : TNode K V → TNode K V) :
    (updN s i f).freeNodes = s.freeNodes := rfl

theorem updN_size (s : TState K V) (i : Nat) (f : TNode K V → TNode K V) :
    (updN s i f).size = s.size := rfl

theorem updN_capacity (s : TState K V) (i : Nat) (f : TNode K V → TNode K V) :
    (updN s i f).capacity = s.capacity := rfl

theorem updN_nodes_size (s : TState K V) (i : Nat) (f : TNode K V → TNode K V) :
    (updN s i f).nodes.size = s.nodes.size := by
  simp [updN, Array.size_setD]

theorem getN_def (s : TState K V) (i : Nat) : getN s i = s.nodes.getD i default := rfl

theorem getD_setD_self {α : Type} (a : Array α) (i : Nat) (v d : α) (h : i < a.size) :
    (a.setD i v).getD i d = v := by
  simp [Array.setD, Array.getD, h]

theorem getD_setD_ne {α : Type} (a : Array α) (i : Nat) (v d : α) (j : Nat) (h : j ≠ i) :
    (a.setD i v).getD j d = a.getD j d := by
  by_cases hi : i < a.size
  · simp only [Array.setD, dif_pos hi]
    by_cases hj : j < a.size
    · simp [Array.getD, hj, Array.getElem_set, h, Ne.symm h]
    · simp [Array.getD, hj]
  · simp [Array.setD, dif_neg hi]

theorem rbDealloc_nodes (s : TState K V) (i : Nat) :
    (RB.deallocateNode s i).nodes =
      s.nodes.setD i { getN s i with in_use := false, red := false, left := none, parent := none, right := s.freeNodes } := rfl

theorem avlDealloc_nodes (s : TState K V) (i : Nat) :
    (AVL.deallocateNode s i).nodes =
      s.nodes.setD i { getN s i with in_use := false, height := 0, left := none, parent := none, right := s.freeNodes } := rfl

section FindCongr

variable [LinearOrder K]

/-- `findNodeF` reaching a node at any fuel yields an occupied node. -/
theorem findNodeF_in_use {s : TState K V} {k : K} :
    ∀ {fuel : Nat} {cur : Option Nat} {i : Nat},
      findNodeF fuel s k cur = some (some i) → (getN s i).in_use = true := by
  intro fuel
  induction fuel with
  | zero => intro cur i h; simp [findNodeF] at h
  | succ n ih =>
    intro cur i h
    match cur with
    | none => simp [findNodeF] at h
    | some c =>
      rw [findNodeF] at h
      by_cases hu : (getN s c).in_use
      · simp only [hu, not_true_eq_false, if_false] at h
        by_cases h1 : k < (getN s c).key
        · rw [if_pos h1] at h; exact ih h
        · rw [if_neg h1] at h
          by_cases h2 : (getN s c).key < k
          · rw [if_pos h2] at h; exact ih h
          · rw [if_neg h2] at h
            cases h
            exact hu
      · simp [hu] at h

/-- A search from a null pointer never finds a node. -/
theorem findNodeF_none_ne {s : TState K V} {k : K} {i : Nat} :
    ∀ fuel : Nat, findNodeF fuel s k none ≠ some (some i) := by
  intro fuel
  cases fuel <;> simp [findNodeF]

/-- Two states that agree on occupancy, and agree entirely on occupied
slots, are indistinguishable to `findNodeF`. -/
theorem findNodeF_congr {s s' : TState K V} {k : K}
    (hA : ∀ j, (getN s j).in_use = (getN s' j).in_use ∧
      ((getN s j).in_use = true → getN s j = getN s' j)) :
    ∀ (fuel : Nat) (cur : Option Nat), findNodeF fuel s k cur = findNodeF fuel s' k cur := by
  intro fuel
  induction fuel with
  | zero => intro cur; simp [findNodeF]
  | succ n ih =>
    intro cur
    match cur with
    | none => simp [findNodeF]
    | some c =>
      rw [findNodeF, findNodeF]
      by_cases hu : (getN s c).in_use
      · have heq := (hA c).2 hu
        rw [← heq]
        simp only [hu, not_true_eq_false, if_false]
        by_cases h1 : k < (getN s c).key
        · simp only [if_pos h1]; exact ih _
        · simp only [if_neg h1]
          by_cases h2 : (getN s c).key < k
          · simp only [if_pos h2]; exact ih _
          · simp only [if_neg h2]
      · have hu' : ¬(getN s' c).in_use = true := by rw [← (hA c).1]; exact hu
        simp [hu, hu']

/-- The BST insertion descent mirrors a successful `find` and exits in
the duplicate branch, even when run on a state whose unoccupied slots
have been scribbled on. -/
theorem insertDescend_dup {s s' : TState K V} {k : K}
    (agree : ∀ j, (getN s j).in_use = true → getN s' j = getN s j) :
    ∀ {fuel : Nat} {c i : Nat},
      findNodeF fuel s k (some c) = some (some i) →
      insertDescend fuel s' k c = some .dup := by
  intro fuel
  induction fuel with
  | zero => intro c i h; simp [findNodeF] at h
  | succ n ih =>
    intro c i h
    rw [findNodeF] at h
    by_cases hu : (getN s c).in_use
    · simp only [hu, not_true_eq_false, if_false] at h
      rw [insertDescend, agree c hu]
      by_cases h1 : k < (getN s c).key
      · rw [if_pos h1] at h
        rw [if_pos h1]
        match hl : (getN s c).left with
        | none => rw [hl] at h; exact absurd h (findNodeF_none_ne n)
        | some l => rw [hl] at h; exact ih h
      · rw [if_neg h1] at h
        rw [if_neg h1]
        by_cases h2 : (getN s c).key < k
        · rw [if_pos h2] at h
          rw [if_pos h2]
          match hr : (getN s c).right with
          | none => rw [hr] at h; exact absurd h (findNodeF_none_ne n)
          | some r => rw [hr] at h; exact ih h
        · rw [if_neg h2]
    · simp [hu] at h

end FindCongr

section DupInsert

variable [LinearOrder K]

/-- `mapFind`-indistinguishability of two maps: same root and the
occupied slots agree. -/
theorem mapFind_congr {m m' : FMap K V} (hroot : m'.st.root = m.st.root)
    (hA : ∀ j, (getN m'.st j).in_use = (getN m.st j).in_use ∧
      ((getN m.st j).in_use = true → getN m'.st j = getN m.st j)) :
    ∀ (fuel : Nat) (q : K), mapFind fuel m' q = mapFind fuel m q := by
  intro fuel q
  have hA' : ∀ j, (getN m'.st j).in_use = (getN m.st j).in_use ∧
      ((getN m'.st j).in_use = true → getN m'.st j = getN m.st j) := by
    intro j
    exact ⟨(hA j).1, fun hj => (hA j).2 ((hA j).1 ▸ hj)⟩
  have hfc : findNodeF fuel m'.st q m.st.root = findNodeF fuel m.st q m.st.root :=
    findNodeF_congr hA' fuel m.st.root
  rw [mapFind, mapFind, hroot, hfc]
  match hres : findNodeF fuel m.st q m.st.root with
  | none => rfl
  | some none => rfl
  | some (some i) =>
    have hiu : (getN m.st i).in_use = true := findNodeF_in_use hres
    simp [(hA i).2 hiu]

/-- The duplicate path of `RBTree::insert`: with a free slot at the head
of the free list and the key already present, insertion fails and the
only lasting change is the scribbled key/value in the still-free
slot. -/
theorem rbInsertDup {F : Nat} {s : TState K V} {k : K} (v2 : V) {r i h : Nat}
    (hroot : s.root = some r)
    (hfree : s.freeNodes = some h) (hlt : h < s.nodes.size)
    (hdead : (getN s h).in_use = false)
    (hfind : findNodeF F s k s.root = some (some i))
    (hsz : ¬s.size ≥ s.capacity) :
    ∃ st', RB.insert F s k v2 = some (false, st') ∧
      st'.root = s.root ∧ st'.freeNodes = s.freeNodes ∧ st'.size = s.size ∧
      st'.capacity = s.capacity ∧
      (∀ j, j ≠ h → getN st' j = getN s j) ∧ (getN st' h).in_use = false := by
  set sA : TState K V := updN { s with freeNodes := (getN s h).right } h (fun n => { n with right := none, left := none, parent := none, red := true, in_use := true }) with hsA
  set s2 : TState K V := updN sA h (fun n => { n with key := k, value := v2 }) with hs2
  have hns : s2.nodes.size = s.nodes.size := by
    rw [hs2, hsA, updN_nodes_size, updN_nodes_size]
  have hagree : ∀ j, (getN s j).in_use = true → getN s2 j = getN s j := by
    intro j hj
    have hjh : j ≠ h := by
      intro e
      rw [e, hdead] at hj
      cases hj
    rw [hs2, getN_updN_ne _ _ _ _ hjh, hsA, getN_updN_ne _ _ _ _ hjh]
    rfl
  have hfind' : findNodeF F s k (some r) = some (some i) := hroot ▸ hfind
  have hdup : insertDescend F s2 k r = some .dup := insertDescend_dup hagree hfind'
  have hroot2 : s2.root = some r := by
    rw [hs2, hsA, updN_root, updN_root]
    exact hroot
  refine ⟨RB.deallocateNode s2 h, ?_, ?_, ?_, ?_, ?_, ?_, ?_⟩
  · simp only [RB.insert, if_neg hsz, RB.allocateNode, hfree]
    rw [← hsA, ← hs2]
    simp only [hroot2, hdup]
  · rw [RB.deallocateNode, updN_root, hs2, hsA, updN_root, updN_root]
  · rw [RB.deallocateNode, hfree]
  · rw [RB.deallocateNode, updN_size, hs2, hsA, updN_size, updN_size]
  · rw [RB.deallocateNode, updN_capacity, hs2, hsA, updN_capacity, updN_capacity]
  · intro j hjh
    rw [getN_def, rbDealloc_nodes, getD_setD_ne _ _ _ _ _ hjh, ← getN_def]
    rw [hs2, getN_updN_ne _ _ _ _ hjh, hsA, getN_updN_ne _ _ _ _ hjh]
    rfl
  · rw [getN_def, rbDealloc_nodes, getD_setD_self _ _ _ _ (hns.symm ▸ hlt)]

/-- The duplicate path of `AVLTree::insert`, mirror of `rbInsertDup`. -/
theorem avlInsertDup {F : Nat} {s : TState K V} {k : K} (v2 : V) {r i h : Nat}
    (hroot : s.root = some r)
    (hfree : s.freeNodes = some h) (hlt : h < s.nodes.size)
    (hdead : (getN s h).in_use = false)
    (hfind : findNodeF F s k s.root = some (some i))
    (hsz : ¬s.size ≥ s.capacity) :
    ∃ st', AVL.insert F s k v2 = some (false, st') ∧
      st'.root = s.root ∧ st'.freeNodes = s.freeNodes ∧ st'.size = s.size ∧
      st'.capacity = s.capacity ∧
      (∀ j, j ≠ h → getN st' j = getN s j) ∧ (getN st' h).in_use = false := by
  set sA : TState K V := updN { s with freeNodes := (getN s h).right } h (fun n => { n with right := none, left := none, parent := none, height := 1, in_use := true }) with hsA
  set s2 : TState K V := updN sA h (fun n => { n with key := k, value := v2 }) with hs2
  have hns : s2.nodes.size = s.nodes.size := by
    rw [hs2, hsA, updN_nodes_size, updN_nodes_size]
  have hagree : ∀ j, (getN s j).in_use = true → getN s2 j = getN s j := by
    intro j hj
    have hjh : j ≠ h := by
      intro e
      rw [e, hdead] at hj
      cases hj
    rw [hs2, getN_updN_ne _ _ _ _ hjh, hsA, getN_updN_ne _ _ _ _ hjh]
    rfl
  have hfind' : findNodeF F s k (some r) = some (some i) := hroot ▸ hfind
  have hdup : insertDescend F s2 k r = some .dup := insertDescend_dup hagree hfind'
  have hroot2 : s2.root = some r := by
    rw [hs2, hsA, updN_root, updN_root]
    exact hroot
  refine ⟨AVL.deallocateNode s2 h, ?_, ?_, ?_, ?_, ?_, ?_, ?_⟩
  · simp only [AVL.insert, if_neg hsz, AVL.allocateNode, hfree]
    rw [← hsA, ← hs2]
    simp only [hroot2, hdup]
  · rw [AVL.deallocateNode, updN_root, hs2, hsA, updN_root, updN_root]
  · rw [AVL.deallocateNode, hfree]
  · rw [AVL.deallocateNode, updN_size, hs2, hsA, updN_size, updN_size]
  · rw [AVL.deallocateNode, updN_capacity, hs2, hsA, updN_capacity, updN_capacity]
  · intro j hjh
    rw [getN_def, avlDealloc_nodes, getD_setD_ne _ _ _ _ _ hjh, ← getN_def]
    rw [hs2, getN_updN_ne _ _ _ _ hjh, hsA, getN_updN_ne _ _ _ _ hjh]
    rfl
  · rw [getN_def, avlDealloc_nodes, getD_setD_self _ _ _ _ (hns.symm ▸ hlt)]

/-- C5: inserting a key that is already present (either strategy) is
rejected: the call returns `false`, the stored value, `size()`, root and
free-list head are unchanged, no slot changes occupancy, and the map
answers every `find` exactly as before — the pre-acquired node has been
released back onto the free list.  The two structural hypotheses are the
facts the duplicate path relies on: the key is present, and when the
arena is not full the free-list head is a live-in-bounds unoccupied
slot. -/
theorem c5_duplicate_insert_rejected {F : Nat} {m : FMap K V} {k : K} {v1 : V} (v2 : V)
    (hfind : mapFind F m k = some (some v1))
    (hfree : m.st.size < m.st.capacity →
      ∃ h, m.st.freeNodes = some h ∧ h < m.st.nodes.size ∧ (getN m.st h).in_use = false) :
    ∃ m', mapInsert F m k v2 = some (false, m') ∧
      mapSize m' = mapSize m ∧ m'.st.root = m.st.root ∧
      m'.st.freeNodes = m.st.freeNodes ∧
      (∀ j, (getN m'.st j).in_use = (getN m.st j).in_use) ∧
      (∀ (fuel' : Nat) (q : K), mapFind fuel' m' q = mapFind fuel' m q) ∧
      mapFind F m' k = some (some v1) := by
  have hfindN : ∃ i, findNodeF F m.st k m.st.root = some (some i) := by
    rw [mapFind] at hfind
    match hres : findNodeF F m.st k m.st.root with
    | none => rw [hres] at hfind; cases hfind
    | some none => rw [hres] at hfind; simp at hfind
    | some (some i) => exact ⟨i, rfl⟩
  obtain ⟨i, hfi⟩ := hfindN
  by_cases hsz : m.st.size ≥ m.st.capacity
  · have he : mapInsert F m k v2 = some (false, m) := by
      cases hstrat : m.strat with
      | RedBlack =>
        simp only [mapInsert, treeInsert, hstrat, RB.insert, if_pos hsz]
        rw [← hstrat]
      | AVL =>
        simp only [mapInsert, treeInsert, hstrat, AVL.insert, if_pos hsz]
        rw [← hstrat]
    exact ⟨m, he, rfl, rfl, rfl, fun _ => rfl, fun _ _ => rfl, hfind⟩
  · have hltsz : m.st.size < m.st.capacity := lt_of_not_ge hsz
    obtain ⟨h, hfree', hlt, hdead⟩ := hfree hltsz
    have hrootEx : ∃ r, m.st.root = some r := by
      match hr : m.st.root with
      | none => rw [hr] at hfi; exact absurd hfi (findNodeF_none_ne F)
      | some r => exact ⟨r, rfl⟩
    obtain ⟨r, hroot⟩ := hrootEx
    have main : ∃ st', treeInsert m.strat F m.st k v2 = some (false, st') ∧
        st'.root = m.st.root ∧ st'.freeNodes = m.st.freeNodes ∧ st'.size = m.st.size ∧
        st'.capacity = m.st.capacity ∧
        (∀ j, j ≠ h → getN st' j = getN m.st j) ∧ (getN st' h).in_use = false := by
      cases hstrat : m.strat with
      | RedBlack =>
        obtain ⟨st', hst⟩ := rbInsertDup v2 hroot hfree' hlt hdead hfi hsz
        exact ⟨st', by rw [treeInsert]; exact hst.1, hst.2.1, hst.2.2.1, hst.2.2.2.1,
          hst.2.2.2.2.1, hst.2.2.2.2.2.1, hst.2.2.2.2.2.2⟩
      | AVL =>
        obtain ⟨st', hst⟩ := avlInsertDup v2 hroot hfree' hlt hdead hfi hsz
        exact ⟨st', by rw [treeInsert]; exact hst.1, hst.2.1, hst.2.2.1, hst.2.2.2.1,
          hst.2.2.2.2.1, hst.2.2.2.2.2.1, hst.2.2.2.2.2.2⟩
    obtain ⟨st', heq, hr', hf', hs', _hc', hgn, hdh⟩ := main
    have huse : ∀ j, (getN st' j).in_use = (getN m.st j).in_use := by
      intro j
      by_cases hj : j = h
      · rw [hj, hdh, hdead]
      · rw [hgn j hj]
    have hA : ∀ j, (getN st' j).in_use = (getN m.st j).in_use ∧
        ((getN m.st j).in_use = true → getN st' j = getN m.st j) := by
      intro j
      refine ⟨huse j, fun hj => ?_⟩
      have hj' : j ≠ h := by
        intro e
        rw [e, hdead] at hj
        cases hj
      exact hgn j hj'
    have hcong : ∀ (fuel' : Nat) (q : K),
        mapFind fuel' { m with st := st' } q = mapFind fuel' m q :=
      mapFind_congr hr' hA
    refine ⟨{ m with st := st' }, ?_, hs', hr', hf', huse, hcong, ?_⟩
    · rw [mapInsert, heq]
    · rw [hcong F k]
      exact hfind

/-- C5 witness: the duplicate-insert law instantiated on a concrete
capacity-2 Red-Black map holding 1 ↦ 101, re-inserting key 1 with
value 999. -/
theorem c5_duplicate_insert_witness :
    ∃ m', mapInsert 50 c5map 1 999 = some (false, m') ∧
      mapSize m' = mapSize c5map ∧ m'.st.root = c5map.st.root ∧
      m'.st.freeNodes = c5map.st.freeNodes ∧
      (∀ j, (getN m'.st j).in_use = (getN c5map.st j).in_use) ∧
      (∀ (fuel' : Nat) (q : Nat), mapFind fuel' m' q = mapFind fuel' c5map q) ∧
      mapFind 50 c5map 1 = some (some 101) :=
  match @c5_duplicate_insert_rejected Nat Nat _ _ _ 50 c5map 1 101 999
    (by decide) (fun _ => ⟨1, by decide, by decide, by decide⟩) with
  | ⟨m', h1, h2, h3, h4, h5, h6, _h7⟩ => ⟨m', h1, h2, h3, h4, h5, h6, by decide⟩

end DupInsert

/-! ## Traversal correctness (C6) -/

section Traversal

variable [LinearOrder K]

theorem minimumF_mono {s : TState K V} :
    ∀ {f f' : Nat} {cur x : Option Nat}, f ≤ f' →
      minimumF f s cur = some x → minimumF f' s cur = some x := by
  intro f
  induction f with
  | zero =>
    intro f' cur x _ h
    simp [minimumF] at h
  | succ n ih =>
    intro f' cur x hle h
    match f', hle with
    | m + 1, hle =>
      have hle' : n ≤ m := Nat.succ_le_succ_iff.mp hle
      rw [minimumF.eq_def] at h
      rw [minimumF.eq_def]
      simp only at h ⊢
      match hc : cur with
      | none => exact h
      | some c =>
        simp only at h ⊢
        by_cases hu : (getN s c).in_use
        · simp only [hu, not_true_eq_false, if_false] at h ⊢
          match hl : (getN s c).left with
          | none => simp only [hl] at h; exact h
          | some l =>
            simp only [hl] at h ⊢
            by_cases hlu : (getN s l).in_use
            · rw [if_pos hlu] at h
              rw [if_pos hlu]
              exact ih hle' h
            · rw [if_neg hlu] at h
              rw [if_neg hlu]
              exact h
        · simp only [hu, not_false_eq_true, if_true] at h ⊢
          exact h

theorem nextUpF_mono {s : TState K V} :
    ∀ {f f' : Nat} {c : Nat} {x : Option Nat}, f ≤ f' →
      nextUpF f s c = some x → nextUpF f' s c = some x := by
  intro f
  induction f with
  | zero =>
    intro f' c x _ h
    simp [nextUpF] at h
  | succ n ih =>
    intro f' c x hle h
    match f', hle with
    | m + 1, hle =>
      have hle' : n ≤ m := Nat.succ_le_succ_iff.mp hle
      rw [nextUpF.eq_def] at h
      rw [nextUpF.eq_def]
      simp only at h ⊢
      match hp : (getN s c).parent with
      | none => simp only [hp] at h; exact h
      | some p =>
        simp only [hp] at h ⊢
        by_cases hr : (getN s p).right = some c
        · rw [if_pos hr] at h
          rw [if_pos hr]
          exact ih hle' h
        · rw [if_neg hr] at h
          rw [if_neg hr]
          exact h

theorem nextF_mono {s : TState K V} {f f' : Nat} {cur x : Option Nat} (hle : f ≤ f')
    (h : nextF f s cur = some x) : nextF f' s cur = some x := by
  rw [nextF.eq_def] at h
  rw [nextF.eq_def]
  match hc : cur with
  | none => exact h
  | some c =>
    simp only at h ⊢
    by_cases hu : (getN s c).in_use
    · simp only [hu, not_true_eq_false, if_false] at h ⊢
      match hr : (getN s c).right with
      | none => simp only [hr] at h; exact nextUpF_mono hle h
      | some r =>
        simp only [hr] at h ⊢
        by_cases hru : (getN s r).in_use
        · rw [if_pos hru] at h
          rw [if_pos hru]
          exact minimumF_mono hle h
        · rw [if_neg hru] at h
          rw [if_neg hru]
          exact nextUpF_mono hle h
    · simp only [hu, not_false_eq_true, if_true] at h ⊢
      exact h

/-- Destructured form of `repB` at a `node`. -/
theorem repB_node {s : TState K V} {l : ITree} {i : Nat} {r : ITree}
    {oi par : Option Nat} (h : repB s (.node l i r) oi par = true) :
    oi = some i ∧ i < s.nodes.size ∧ (getN s i).in_use = true ∧
    (getN s i).parent = par ∧ repB s l (getN s i).left (some i) = true ∧
    repB s r (getN s i).right (some i) = true := by
  rw [repB] at h
  simp only [Bool.and_eq_true, decide_eq_true_eq] at h
  exact ⟨h.1.1.1.1.1, h.1.1.1.1.2, h.1.1.1.2, h.1.1.2, h.1.2, h.2⟩

theorem repB_nil {s : TState K V} {oi par : Option Nat}
    (h : repB s .nil oi par = true) : oi = none := by
  rw [repB] at h
  simpa using h

/-- Every node of a represented tree is occupied. -/
theorem repB_in_use {s : TState K V} :
    ∀ {t : ITree} {oi par : Option Nat} {j : Nat},
      repB s t oi par = true → j ∈ inorder t → (getN s j).in_use = true := by
  intro t
  induction t with
  | nil => intro _ _ j _ hj; simp [inorder] at hj
  | node l i r ihl ihr =>
    intro oi par j h hj
    obtain ⟨_, _, hu, _, hl, hr⟩ := repB_node h
    rw [inorder] at hj
    rcases List.mem_append.mp hj with hjl | hjr
    · exact ihl hl hjl
    · rcases List.mem_cons.mp hjr with rfl | hjr'
      · exact hu
      · exact ihr hr hjr'

/-- The root index of a represented nonempty tree is in its inorder. -/
theorem rootIdx_mem {l : ITree} {i : Nat} {r : ITree} :
    i ∈ inorder (.node l i r) := by
  rw [inorder]
  exact List.mem_append.mpr (Or.inr (List.mem_cons_self i _))

/-- The rightmost node of a represented tree has a null right child. -/
theorem lastIdx_right_none {s : TState K V} :
    ∀ {t : ITree} {oi par : Option Nat} {z : Nat},
      repB s t oi par = true → lastIdx t = some z →
      (getN s z).right = none := by
  intro t
  induction t with
  | nil =>
    intro oi par z _ hz
    simp [lastIdx] at hz
  | node l j r ihl ihr =>
    intro oi par z h hz
    obtain ⟨_, _, _, _, _, hrr⟩ := repB_node h
    rw [lastIdx] at hz
    cases r with
    | nil =>
      simp only [lastIdx] at hz
      injection hz with e
      exact e ▸ repB_nil hrr
    | node rl rj rr =>
      have hsome : (lastIdx (ITree.node rl rj rr)).isSome := by
        rw [lastIdx]
        cases h' : lastIdx rr <;> simp [h']
      match hlr : lastIdx (ITree.node rl rj rr) with
      | none =>
        rw [hlr] at hsome
        cases hsome
      | some z0 =>
        simp only [hlr] at hz
        injection hz with e
        exact e ▸ ihr hrr hlr

/-- `minimum` started at the root of a represented nonempty subtree
stops at its leftmost node. -/
theorem minReach {s : TState K V} :
    ∀ {t : ITree} {i : Nat} {par : Option Nat},
      repB s t (some i) par = true →
      ∃ f, minimumF f s (some i) = some (firstIdx t) := by
  intro t
  induction t with
  | nil =>
    intro i par h
    exact absurd (repB_nil h) (by simp)
  | node l j r ihl ihr =>
    intro i par h
    obtain ⟨hoi, _, hu, _, hll, _⟩ := repB_node h
    injection hoi with e
    subst e
    cases l with
    | nil =>
      have hleft : (getN s i).left = none := repB_nil hll
      refine ⟨1, ?_⟩
      rw [minimumF.eq_def]
      simp [hu, hleft, firstIdx]
    | node ll lj lr =>
      obtain ⟨hol, _, hlu, _, _, _⟩ := repB_node hll
      rw [hol] at hll
      obtain ⟨f0, hf0⟩ := ihl hll
      refine ⟨f0 + 1, ?_⟩
      rw [minimumF.eq_def]
      simp only [hu, not_true_eq_false, if_false, hol, hlu, if_true]
      rw [hf0]
      have hsome : (firstIdx (ITree.node ll lj lr)).isSome := by
        rw [firstIdx]
        cases h' : firstIdx ll <;> simp [h']
      match hfi : firstIdx (ITree.node ll lj lr) with
      | none => rw [hfi] at hsome; cases hsome
      | some w =>
        rw [firstIdx, hfi]

/-- Climbing from the rightmost node of a represented subtree continues
exactly like climbing from the subtree's root. -/
theorem upContinue {s : TState K V} :
    ∀ {t : ITree} {i : Nat} {par res : Option Nat} {z : Nat},
      repB s t (some i) par = true → lastIdx t = some z →
      (∃ f, nextUpF f s i = some res) → ∃ f, nextUpF f s z = some res := by
  intro t
  induction t with
  | nil =>
    intro i par res z h _ _
    exact absurd (repB_nil h) (by simp)
  | node l j r ihl ihr =>
    intro i par res z h hz hcont
    obtain ⟨hoi, _, _, _, _, hrr⟩ := repB_node h
    injection hoi with e
    subst e
    rw [lastIdx] at hz
    cases r with
    | nil =>
      simp only [lastIdx] at hz
      injection hz with e2
      subst e2
      exact hcont
    | node rl rj rr =>
      have hsome : (lastIdx (ITree.node rl rj rr)).isSome := by
        rw [lastIdx]
        cases h' : lastIdx rr <;> simp [h']
      match hlr : lastIdx (ITree.node rl rj rr) with
      | none =>
        rw [hlr] at hsome
        cases hsome
      | some z0 =>
        simp only [hlr] at hz
        injection hz with e2
        subst e2
        obtain ⟨hor, _, _, hpr, _, _⟩ := repB_node hrr
        rw [hor] at hrr
        apply ihr hrr hlr
        obtain ⟨f, hf⟩ := hcont
        refine ⟨f + 1, ?_⟩
        rw [nextUpF.eq_def]
        simp only [hpr, hor, if_pos rfl]
        exact hf

/-- `firstIdx` is the head of the inorder listing. -/
theorem firstIdx_head : ∀ t : ITree, firstIdx t = (inorder t).head? := by
  intro t
  induction t with
  | nil => rfl
  | node l j r ihl ihr =>
    rw [firstIdx, inorder]
    match hio : inorder l with
    | [] =>
      rw [hio] at ihl
      rw [ihl]
      rfl
    | a :: as =>
      rw [hio] at ihl
      rw [ihl]
      rfl

/-- `lastIdx` is the last element of the inorder listing. -/
theorem lastIdx_getLast : ∀ t : ITree, lastIdx t = (inorder t).getLast? := by
  intro t
  induction t with
  | nil => rfl
  | node l j r ihl ihr =>
    rw [lastIdx, inorder]
    match hio : inorder r with
    | [] =>
      rw [hio] at ihr
      rw [ihr]
      simp
    | a :: as =>
      rw [hio] at ihr
      rw [ihr]
      have happ : (inorder l ++ j :: a :: as).getLast? = (j :: a :: as).getLast? :=
        List.getLast?_append_of_ne_nil _ (by simp)
      rw [happ, List.getLast?_cons_cons]
      match h' : (a :: as).getLast? with
      | none => simp [List.getLast?_eq_none_iff] at h'
      | some w => simp [h']

/-- Consecutive inorder nodes of a represented tree are linked by one
`next` step. -/
theorem adjChain {s : TState K V} :
    ∀ {t : ITree} {oi par : Option Nat},
      repB s t oi par = true → (inorder t).Nodup →
      List.Chain' (fun a b => ∃ f, nextF f s (some a) = some (some b)) (inorder t) := by
  intro t
  induction t with
  | nil =>
    intro oi par _ _
    simp [inorder]
  | node l j r ihl ihr =>
    intro oi par h hnd
    obtain ⟨_, _, hu, _, hll, hrr⟩ := repB_node h
    rw [inorder] at hnd ⊢
    rw [List.chain'_append]
    refine ⟨ihl hll hnd.of_append_left, ?_, ?_⟩
    · rw [List.chain'_cons']
      refine ⟨?_, ihr hrr (hnd.of_append_right).of_cons⟩
      intro y hy
      cases r with
      | nil => simp [inorder] at hy
      | node rl rj rr =>
        obtain ⟨hor, _, hru, _, _, _⟩ := repB_node hrr
        rw [hor] at hrr
        obtain ⟨f0, hf0⟩ := minReach hrr
        have hfi : firstIdx (ITree.node rl rj rr) = some y := by
          rw [firstIdx_head]
          simpa using hy
        refine ⟨f0, ?_⟩
        rw [nextF.eq_def]
        simp only [hu, not_true_eq_false, if_false, hor, hru, if_true]
        rw [hf0, hfi]
    · intro x hx y hy
      have hyj : y = j := by
        simp at hy
        exact hy.symm
      rw [hyj]
      cases l with
      | nil => simp [inorder] at hx
      | node ll lj lr =>
        have hlx : lastIdx (ITree.node ll lj lr) = some x := by
          rw [lastIdx_getLast]
          simpa using hx
        obtain ⟨hol, _, _, hpl, _, _⟩ := repB_node hll
        rw [hol] at hll
        have hxin : x ∈ inorder (ITree.node ll lj lr) := by
          rw [lastIdx_getLast] at hlx
          exact List.mem_of_mem_getLast? hlx
        have hxu := repB_in_use hll hxin
        have hxr : (getN s x).right = none := lastIdx_right_none hll hlx
        have hne : (getN s j).right ≠ some lj := by
          cases r with
          | nil =>
            rw [repB_nil hrr]
            simp
          | node rl rj rr =>
            obtain ⟨hor, _, _, _, _, _⟩ := repB_node hrr
            rw [hor]
            intro hcontra
            injection hcontra with e
            have hljl : lj ∈ inorder (ITree.node ll lj lr) := rootIdx_mem
            have hrjr : rj ∈ j :: inorder (ITree.node rl rj rr) :=
              List.mem_cons_of_mem j rootIdx_mem
            exact (List.disjoint_of_nodup_append hnd) hljl (e ▸ hrjr)
        have hcont : ∃ f, nextUpF f s lj = some (some j) := by
          refine ⟨1, ?_⟩
          rw [nextUpF.eq_def]
          simp only [hpl, if_neg hne]
        obtain ⟨f1, hf1⟩ := upContinue hll hlx hcont
        refine ⟨f1, ?_⟩
        rw [nextF.eq_def]
        simp only [hxu, not_true_eq_false, if_false, hxr]
        exact hf1

/-- `next` from the rightmost node of the whole represented tree reaches
the end (null). -/
theorem lastNone {s : TState K V} {t : ITree} {i z : Nat}
    (h : repB s t (some i) none = true) (hz : lastIdx t = some z) :
    ∃ f, nextF f s (some z) = some none := by
  have hzin : z ∈ inorder t := by
    rw [lastIdx_getLast] at hz
    exact List.mem_of_mem_getLast? hz
  have hzu := repB_in_use h hzin
  have hzr := lastIdx_right_none h hz
  have hroot_par : (getN s i).parent = none := by
    cases t with
    | nil => exact absurd (repB_nil h) (by simp)
    | node l j r =>
      obtain ⟨hoi, _, _, hp, _, _⟩ := repB_node h
      injection hoi with e
      exact e.symm ▸ hp
  have hcont : ∃ f, nextUpF f s i = some none := by
    refine ⟨1, ?_⟩
    rw [nextUpF.eq_def]
    simp [hroot_par]
  obtain ⟨f1, hf1⟩ := upContinue h hz hcont
  refine ⟨f1, ?_⟩
  rw [nextF.eq_def]
  simp only [hzu, not_true_eq_false, if_false, hzr]
  exact hf1

theorem iterWalk_none {s : TState K V} (F : Nat) :
    ∀ steps, iterWalk F s steps none = some [] := by
  intro steps
  cases steps <;> rfl

/-- Walking a `next`-chain enumerates it. -/
theorem walkList {s : TState K V} :
    ∀ (xs : List Nat) (x : Nat),
      List.Chain' (fun a b => ∃ f, nextF f s (some a) = some (some b)) (x :: xs) →
      (∃ f z, (x :: xs).getLast? = some z ∧ nextF f s (some z) = some none) →
      ∃ F0, ∀ F, F0 ≤ F → ∀ steps, xs.length < steps →
        iterWalk F s steps (some x) = some ((x :: xs).map fun j => (getN s j).key) := by
  intro xs
  induction xs with
  | nil =>
    intro x _ hlast
    obtain ⟨f, z, hz, hf⟩ := hlast
    have hzx : z = x := by
      simp at hz
      exact hz.symm
    refine ⟨f, ?_⟩
    intro F hF steps hsteps
    match steps, hsteps with
    | st + 1, _ =>
      have hx : nextF F s (some x) = some none := nextF_mono hF (hzx ▸ hf)
      rw [iterWalk.eq_def]
      simp only [hx, iterWalk_none]
      rfl
  | cons y rest ih =>
    intro x hchain hlast
    rw [List.chain'_cons] at hchain
    obtain ⟨⟨f1, hf1⟩, hchain'⟩ := hchain
    have hlast' : ∃ f z, (y :: rest).getLast? = some z ∧ nextF f s (some z) = some none := by
      obtain ⟨f, z, hz, hf⟩ := hlast
      rw [List.getLast?_cons_cons] at hz
      exact ⟨f, z, hz, hf⟩
    obtain ⟨F1, hF1⟩ := ih y hchain' hlast'
    refine ⟨max f1 F1, ?_⟩
    intro F hF steps hsteps
    match steps, hsteps with
    | st + 1, hsteps =>
      have hstep : nextF F s (some x) = some (some y) :=
        nextF_mono (le_trans (le_max_left _ _) hF) hf1
      have hlen : rest.length < st := by
        have := Nat.lt_of_succ_lt_succ hsteps
        simpa using this
      have hrest : iterWalk F s st (some y) =
          some ((y :: rest).map fun j => (getN s j).key) :=
        hF1 F (le_trans (le_max_right _ _) hF) st hlen
      rw [iterWalk.eq_def]
      simp only [hstep, hrest]
      rfl

/-- C6: on a well-formed map state — the arena represents a search tree
`t` (parent-coherent, distinct slots, in-order keys strictly increasing,
`size` = number of nodes) — the iteration `minimum()` then repeated
`next()` visits exactly the in-order key sequence: strictly increasing
keys, and exactly `size()` of them before the end. -/
theorem c6_inorder_traversal (m : FMap K V) (t : ITree)
    (hrep : repB m.st t m.st.root none = true)
    (hnd : (inorder t).Nodup)
    (hsorted : List.Chain' (· < ·) ((inorder t).map fun j => (getN m.st j).key))
    (hsz : mapSize m = (inorder t).length) :
    ∃ F0, ∀ F, F0 ≤ F → ∀ steps, mapSize m ≤ steps →
      mapTraversal F steps m = some ((inorder t).map fun j => (getN m.st j).key) ∧
      List.Chain' (· < ·) ((inorder t).map fun j => (getN m.st j).key) ∧
      ((inorder t).map fun j => (getN m.st j).key).length = mapSize m := by
  cases t with
  | nil =>
    have hroot : m.st.root = none := repB_nil hrep
    refine ⟨1, ?_⟩
    intro F hF steps _
    refine ⟨?_, by simp [inorder], by simp [inorder, hsz]⟩
    rw [mapTraversal, hroot]
    have h1 : minimumF 1 m.st (none : Option Nat) = some none := rfl
    have hm := minimumF_mono hF h1
    simp only [hm, iterWalk_none, inorder]
    rfl
  | node l j r =>
    have hoi : m.st.root = some j := (repB_node hrep).1
    rw [hoi] at hrep
    obtain ⟨f0, hmin⟩ := minReach hrep
    match hio : inorder (ITree.node l j r) with
    | [] => exact absurd hio (by simp [inorder])
    | x :: xs =>
      have hchain := adjChain hrep hnd
      rw [hio] at hchain
      obtain ⟨z, hz⟩ : ∃ z, (x :: xs).getLast? = some z := by
        match h' : (x :: xs).getLast? with
        | none => simp [List.getLast?_eq_none_iff] at h'
        | some w => exact ⟨w, rfl⟩
      have hlz : lastIdx (ITree.node l j r) = some z := by
        rw [lastIdx_getLast, hio, hz]
      obtain ⟨fL, hfL⟩ := lastNone hrep hlz
      have hfi : firstIdx (ITree.node l j r) = some x := by
        rw [firstIdx_head, hio]
        rfl
      obtain ⟨F1, hwalk⟩ := walkList xs x hchain ⟨fL, z, hz, hfL⟩
      refine ⟨max f0 F1, ?_⟩
      intro F hF steps hsteps
      rw [hio] at hsorted hsz
      refine ⟨?_, hsorted, by rw [hsz]; simp⟩
      rw [mapTraversal, hoi]
      have hminF : minimumF F m.st (some j) = some (some x) :=
        minimumF_mono (le_trans (le_max_left _ _) hF) (hfi ▸ hmin)
      simp only [hminF]
      have hlen : xs.length < steps := by
        rw [hsz] at hsteps
        simpa using hsteps
      exact hwalk F (le_trans (le_max_right _ _) hF) steps hlen

/-- C6 witness: the traversal theorem instantiated on a concrete
three-key Red-Black map. -/
theorem c6_inorder_traversal_witness :
    ∃ F0, ∀ F, F0 ≤ F → ∀ steps, mapSize c6map ≤ steps →
      mapTraversal F steps c6map =
        some ((inorder c6tree).map fun j => (getN c6map.st j).key) ∧
      List.Chain' (· < ·) ((inorder c6tree).map fun j => (getN c6map.st j).key) ∧
      ((inorder c6tree).map fun j => (getN c6map.st j).key).length = mapSize c6map :=
  c6_inorder_traversal c6map c6tree (by decide) (by decide)
    (by
      rw [show ((inorder c6tree).map fun j => (getN c6map.st j).key) = [1, 2, 3] from rfl]
      exact List.chain'_cons.mpr ⟨by norm_num,
        List.chain'_cons.mpr ⟨by norm_num, List.chain'_singleton _⟩⟩)
    (by decide)

end Traversal

/-! ## Occupancy counting (C3) -/

section Counting

theorem countP_set_aux {α : Type} (p : α → Bool) :
    ∀ (l : List α) (i : Nat) (v : α) (h : i < l.length),
      (l.set i v).countP p + (if p (l.get ⟨i, h⟩) then 1 else 0) =
        l.countP p + (if p v then 1 else 0) := by
  intro l
  induction l with
  | nil =>
    intro i v h
    simp at h
  | cons a t ih =>
    intro i v h
    cases i with
    | zero =>
      simp only [List.set, List.countP_cons, List.get]
      by_cases hv : p v <;> by_cases ha : p a <;> simp [hv, ha] <;> omega
    | succ n =>
      have hn : n < t.length := by simpa using h
      simp only [List.set, List.countP_cons, List.get]
      have hih := ih n v hn
      simp only [List.get_eq_getElem] at hih
      by_cases ha : p a <;> simp [ha] <;> omega

theorem inUseCount_updN_le (s : TState K V) (i : Nat) (f : TNode K V → TNode K V) :
    inUseCount (updN s i f) ≤ inUseCount s + 1 := by
  by_cases hi : i < s.nodes.size
  · have hsame : (updN s i f).nodes.toList = s.nodes.toList.set i (f (getN s i)) := by
      simp [updN, Array.setD, hi]
    have hlen : i < s.nodes.toList.length := by simpa using hi
    have hc := countP_set_aux (fun n => n.in_use) s.nodes.toList i (f (getN s i)) hlen
    rw [inUseCount, inUseCount, hsame]
    by_cases hv : (f (getN s i)).in_use <;>
      by_cases ho : (s.nodes.toList.get ⟨i, hlen⟩).in_use <;>
      simp [hv, ho] at hc <;> omega
  · have hsame : (updN s i f).nodes.toList = s.nodes.toList := by
      simp [updN, Array.setD, hi]
    rw [inUseCount, inUseCount, hsame]
    omega

theorem getN_eq_toListGet (s : TState K V) (i : Nat) (h : i < s.nodes.toList.length) :
    getN s i = s.nodes.toList.get ⟨i, h⟩ := by
  have hi : i < s.nodes.size := by simpa using h
  simp [getN, Array.getD, hi]

theorem getN_dead_of_oob (s : TState K V) (i : Nat) (h : ¬i < s.nodes.size) :
    (getN s i).in_use = false := by
  simp only [getN, Array.getD, dif_neg h]
  rfl

theorem inUseCount_updN_preserve (s : TState K V) (i : Nat) (f : TNode K V → TNode K V)
    (hf : (f (getN s i)).in_use = (getN s i).in_use) :
    inUseCount (updN s i f) = inUseCount s := by
  by_cases hi : i < s.nodes.size
  · have hsame : (updN s i f).nodes.toList = s.nodes.toList.set i (f (getN s i)) := by
      simp [updN, Array.setD, hi]
    have hlen : i < s.nodes.toList.length := by simpa using hi
    have hc := countP_set_aux (fun n => n.in_use) s.nodes.toList i (f (getN s i)) hlen
    rw [← getN_eq_toListGet s i hlen] at hc
    rw [inUseCount, inUseCount, hsame]
    by_cases ho : (getN s i).in_use
    · rw [ho] at hf
      simp [hf, ho] at hc
      omega
    · rw [Bool.not_eq_true] at ho
      rw [ho] at hf
      simp [hf, ho] at hc
      omega
  · have hsame : (updN s i f).nodes.toList = s.nodes.toList := by
      simp [updN, Array.setD, hi]
    rw [inUseCount, inUseCount, hsame]

theorem inUseCount_updN_dealloc (s : TState K V) (i : Nat) (f : TNode K V → TNode K V)
    (hin : (getN s i).in_use = true) (hf : (f (getN s i)).in_use = false) :
    inUseCount (updN s i f) + 1 = inUseCount s := by
  have hi : i < s.nodes.size := by
    by_contra hc
    rw [getN_dead_of_oob s i hc] at hin
    cases hin
  have hsame : (updN s i f).nodes.toList = s.nodes.toList.set i (f (getN s i)) := by
    simp [updN, Array.setD, hi]
  have hlen : i < s.nodes.toList.length := by simpa using hi
  have hc := countP_set_aux (fun n => n.in_use) s.nodes.toList i (f (getN s i)) hlen
  rw [← getN_eq_toListGet s i hlen] at hc
  rw [inUseCount, inUseCount, hsame]
  rw [hf, hin] at hc
  simp at hc
  omega

theorem inUseCount_pos (s : TState K V) (i : Nat) (hin : (getN s i).in_use = true) :
    1 ≤ inUseCount s := by
  have hi : i < s.nodes.size := by
    by_contra hc
    rw [getN_dead_of_oob s i hc] at hin
    cases hin
  have hlen : i < s.nodes.toList.length := by simpa using hi
  have hmem : getN s i ∈ s.nodes.toList := by
    rw [getN_eq_toListGet s i hlen]
    exact List.get_mem _ _ _
  rw [inUseCount]
  exact List.countP_pos_iff.mpr ⟨getN s i, hmem, hin⟩

theorem updN_oob (s : TState K V) (i : Nat) (f : TNode K V → TNode K V)
    (h : s.nodes.size ≤ i) : updN s i f = s := by
  simp [updN, Array.setD, dif_neg (Nat.not_lt.mpr h)]

theorem getN_updN_in_use (s : TState K V) (i : Nat) (f : TNode K V → TNode K V)
    (hf : ∀ n, (f n).in_use = n.in_use) (j : Nat) :
    (getN (updN s i f) j).in_use = (getN s j).in_use := by
  by_cases hji : j = i
  · subst hji
    by_cases hb : j < s.nodes.size
    · rw [getN_updN_self s j f hb, hf]
    · rw [updN_oob s j f (Nat.not_lt.mp hb)]
  · rw [getN_updN_ne s i f j hji]

@[simp]
theorem in_use_setLeft (s : TState K V) (i : Nat) (o : Option Nat) (j : Nat) :
    (getN (setLeft s i o) j).in_use = (getN s j).in_use :=
  getN_updN_in_use s i (fun n => { n with left := o }) (fun _ => rfl) j

@[simp]
theorem in_use_setRight (s : TState K V) (i : Nat) (o : Option Nat) (j : Nat) :
    (getN (setRight s i o) j).in_use = (getN s j).in_use :=
  getN_updN_in_use s i (fun n => { n with right := o }) (fun _ => rfl) j

@[simp]
theorem in_use_setParent (s : TState K V) (i : Nat) (o : Option Nat) (j : Nat) :
    (getN (setParent s i o) j).in_use = (getN s j).in_use :=
  getN_updN_in_use s i (fun n => { n with parent := o }) (fun _ => rfl) j

@[simp]
theorem in_use_setHeight (s : TState K V) (i : Nat) (hv : Int) (j : Nat) :
    (getN (setHeight s i hv) j).in_use = (getN s j).in_use :=
  getN_updN_in_use s i (fun n => { n with height := hv }) (fun _ => rfl) j

@[simp]
theorem in_use_setRed (s : TState K V) (i : Nat) (b : Bool) (j : Nat) :
    (getN (setRed s i b) j).in_use = (getN s j).in_use :=
  getN_updN_in_use s i (fun n => { n with red := b }) (fun _ => rfl) j

@[simp]
theorem in_use_setRootP (s : TState K V) (o : Option Nat) (j : Nat) :
    (getN (setRootP s o) j).in_use = (getN s j).in_use := rfl

@[simp]
theorem inUseCount_setLeft (s : TState K V) (i : Nat) (o : Option Nat) :
    inUseCount (setLeft s i o) = inUseCount s :=
  inUseCount_updN_preserve _ _ _ rfl

@[simp]
theorem inUseCount_setRight (s : TState K V) (i : Nat) (o : Option Nat) :
    inUseCount (setRight s i o) = inUseCount s :=
  inUseCount_updN_preserve _ _ _ rfl

@[simp]
theorem inUseCount_setParent (s : TState K V) (i : Nat) (o : Option Nat) :
    inUseCount (setParent s i o) = inUseCount s :=
  inUseCount_updN_preserve _ _ _ rfl

@[simp]
theorem inUseCount_setHeight (s : TState K V) (i : Nat) (hv : Int) :
    inUseCount (setHeight s i hv) = inUseCount s :=
  inUseCount_updN_preserve _ _ _ rfl

@[simp]
theorem inUseCount_setRed (s : TState K V) (i : Nat) (b : Bool) :
    inUseCount (setRed s i b) = inUseCount s :=
  inUseCount_updN_preserve _ _ _ rfl

@[simp]
theorem inUseCount_setRootP (s : TState K V) (o : Option Nat) :
    inUseCount (setRootP s o) = inUseCount s := rfl

@[simp]
theorem size_setLeft (s : TState K V) (i : Nat) (o : Option Nat) :
    (setLeft s i o).size = s.size := rfl

@[simp]
theorem size_setRight (s : TState K V) (i : Nat) (o : Option Nat) :
    (setRight s i o).size = s.size := rfl

@[simp]
theorem size_setParent (s : TState K V) (i : Nat) (o : Option Nat) :
    (setParent s i o).size = s.size := rfl

@[simp]
theorem size_setHeight (s : TState K V) (i : Nat) (hv : Int) :
    (setHeight s i hv).size = s.size := rfl

@[simp]
theorem size_setRed (s : TState K V) (i : Nat) (b : Bool) :
    (setRed s i b).size = s.size := rfl

@[simp]
theorem size_setRootP (s : TState K V) (o : Option Nat) :
    (setRootP s o).size = s.size := rfl

@[simp]
theorem capacity_setLeft (s : TState K V) (i : Nat) (o : Option Nat) :
    (setLeft s i o).capacity = s.capacity := rfl

@[simp]
theorem capacity_setRight (s : TState K V) (i : Nat) (o : Option Nat) :
    (setRight s i o).capacity = s.capacity := rfl

@[simp]
theorem capacity_setParent (s : TState K V) (i : Nat) (o : Option Nat) :
    (setParent s i o).capacity = s.capacity := rfl

@[simp]
theorem capacity_setHeight (s : TState K V) (i : Nat) (hv : Int) :
    (setHeight s i hv).capacity = s.capacity := rfl

@[simp]
theorem capacity_setRed (s : TState K V) (i : Nat) (b : Bool) :
    (setRed s i b).capacity = s.capacity := rfl

@[simp]
theorem capacity_setRootP (s : TState K V) (o : Option Nat) :
    (setRootP s o).capacity = s.capacity := rfl

theorem obs_rfl (s : TState K V) : ObsPres s s := ⟨rfl, rfl, rfl, fun _ => rfl⟩

theorem obs_setLeft (s : TState K V) (i : Nat) (o : Option Nat) :
    ObsPres s (setLeft s i o) := by simp [ObsPres]

theorem obs_setRight (s : TState K V) (i : Nat) (o : Option Nat) :
    ObsPres s (setRight s i o) := by simp [ObsPres]

theorem obs_setParent (s : TState K V) (i : Nat) (o : Option Nat) :
    ObsPres s (setParent s i o) := by simp [ObsPres]

theorem obs_setHeight (s : TState K V) (i : Nat) (hv : Int) :
    ObsPres s (setHeight s i hv) := by simp [ObsPres]

theorem obs_setRed (s : TState K V) (i : Nat) (b : Bool) :
    ObsPres s (setRed s i b) := by simp [ObsPres]

theorem obs_setRootP (s : TState K V) (o : Option Nat) :
    ObsPres s (setRootP s o) := by simp [ObsPres]

theorem obs_trans {s t u : TState K V} (h1 : ObsPres s t) (h2 : ObsPres t u) :
    ObsPres s u :=
  ⟨h2.1.trans h1.1, h2.2.1.trans h1.2.1, h2.2.2.1.trans h1.2.2.1,
   fun j => (h2.2.2.2 j).trans (h1.2.2.2 j)⟩

theorem obs_transplant (s : TState K V) (u : Nat) (v : Option Nat) :
    ObsPres s (transplant s u v) := by
  rw [transplant.eq_def]
  repeat' split
  all_goals simp [ObsPres]

theorem obs_rotateLeftLinks {s : TState K V} {i : Nat} {s' : TState K V} {rc : Nat}
    (h : rotateLeftLinks s i = some (s', rc)) : ObsPres s s' := by
  rw [rotateLeftLinks] at h
  split at h
  · exact Option.noConfusion h
  · injection h with h2
    injection h2 with h3 _
    subst h3
    repeat' split
    all_goals simp [ObsPres]

theorem obs_rotateRightLinks {s : TState K V} {i : Nat} {s' : TState K V} {lc : Nat}
    (h : rotateRightLinks s i = some (s', lc)) : ObsPres s s' := by
  rw [rotateRightLinks] at h
  split at h
  · exact Option.noConfusion h
  · injection h with h2
    injection h2 with h3 _
    subst h3
    repeat' split
    all_goals simp [ObsPres]

theorem obs_updateHeightAt (s : TState K V) (i : Nat) :
    ObsPres s (AVL.updateHeightAt s i) := by
  rw [AVL.updateHeightAt]
  split <;> simp [ObsPres]

theorem obs_avl_rotateLeft {s s' : TState K V} {i : Nat}
    (h : AVL.rotateLeft s i = some s') : ObsPres s s' := by
  rw [AVL.rotateLeft] at h
  split at h
  · exact Option.noConfusion h
  · injection h with h2
    subst h2
    rename_i s1 rc heq
    exact obs_trans (obs_rotateLeftLinks heq)
      (obs_trans (obs_updateHeightAt _ _) (obs_updateHeightAt _ _))

theorem obs_avl_rotateRight {s s' : TState K V} {i : Nat}
    (h : AVL.rotateRight s i = some s') : ObsPres s s' := by
  rw [AVL.rotateRight] at h
  split at h
  · exact Option.noConfusion h
  · injection h with h2
    subst h2
    rename_i s1 lc heq
    exact obs_trans (obs_rotateRightLinks heq)
      (obs_trans (obs_updateHeightAt _ _) (obs_updateHeightAt _ _))

theorem obs_balance [LinearOrder K] :
    ∀ (fuel : Nat) (s : TState K V) (oi : Option Nat) (s' : TState K V),
      AVL.balance fuel s oi = some s' → ObsPres s s' := by
  intro fuel
  induction fuel with
  | zero =>
    intro s oi s' h
    rw [AVL.balance] at h
    exact Option.noConfusion h
  | succ n ih =>
    intro s oi s' h
    match oi with
    | none =>
      rw [AVL.balance] at h
      injection h with h2
      subst h2
      exact obs_rfl s
    | some i =>
      rw [AVL.balance] at h
      simp only at h
      split at h
      · exact Option.noConfusion h
      · rename_i s2 heq2
        refine obs_trans ?_ (ih s2 _ s' h)
        split at heq2
        · split at heq2
          · exact Option.noConfusion heq2
          · rename_i sA heqA
            refine obs_trans ?_ (obs_avl_rotateRight heq2)
            split at heqA
            · split at heqA
              · exact Option.noConfusion heqA
              · exact obs_trans (obs_updateHeightAt s i) (obs_avl_rotateLeft heqA)
            · injection heqA with hA
              exact hA ▸ obs_updateHeightAt s i
        · split at heq2
          · split at heq2
            · exact Option.noConfusion heq2
            · rename_i sA heqA
              refine obs_trans ?_ (obs_avl_rotateLeft heq2)
              split at heqA
              · split at heqA
                · exact Option.noConfusion heqA
                · exact obs_trans (obs_updateHeightAt s i) (obs_avl_rotateRight heqA)
              · injection heqA with hA
                exact hA ▸ obs_updateHeightAt s i
          · injection heq2 with h2
            exact h2 ▸ obs_updateHeightAt s i

theorem obs_balInsHelper {s : TState K V} {i : Nat} {uncle : Option Nat}
    {ipl : Bool} {s' : TState K V}
    (h : RB.balInsHelper s i uncle ipl = some s') : ObsPres s s' := by
  rw [RB.balInsHelper.eq_def] at h
  simp only at h
  split at h
  · split at h
    · exact Option.noConfusion h
    · split at h
      · exact Option.noConfusion h
      · split at h
        · exact Option.noConfusion h
        · injection h with h2
          subst h2
          exact obs_trans (obs_setRed _ _ _)
            (obs_trans (obs_setRed _ _ _) (obs_setRed _ _ _))
  · split at h
    · exact Option.noConfusion h
    · split at h
      · exact Option.noConfusion h
      · rename_i sT j heqT
        have hT : ObsPres s sT := by
          split at heqT
          case isTrue =>
            split at heqT
            · split at heqT
              · exact Option.noConfusion heqT
              · rename_i s2 snd heqR
                injection heqT with hp
                injection hp with hp1 hp2
                subst hp1
                exact obs_rotateLeftLinks heqR
            · injection heqT with hp
              injection hp with hp1 hp2
              subst hp1
              exact obs_rfl s
          case isFalse =>
            split at heqT
            · split at heqT
              · exact Option.noConfusion heqT
              · rename_i s2 snd heqR
                injection heqT with hp
                injection hp with hp1 hp2
                subst hp1
                exact obs_rotateRightLinks heqR
            · injection heqT with hp
              injection hp with hp1 hp2
              subst hp1
              exact obs_rfl s
        split at h
        · exact Option.noConfusion h
        · rename_i p2 hp2
          split at h
          · exact Option.noConfusion h
          · rename_i p3 hp3
            split at h
            · exact Option.noConfusion h
            · rename_i gp2 hgp2
              split at h
              · exact Option.noConfusion h
              · rename_i p4 hp4
                split at h
                · exact Option.noConfusion h
                · rename_i gp3 hgp3
                  split at h
                  · exact Option.noConfusion h
                  · rename_i sW snd heqW
                    injection h with h2
                    subst h2
                    refine obs_trans hT
                      (obs_trans (obs_setRed sT p2 false)
                        (obs_trans (obs_setRed (setRed sT p2 false) gp2 true) ?_))
                    split at heqW
                    · exact obs_rotateRightLinks heqW
                    · exact obs_rotateLeftLinks heqW

theorem obs_balanceAfterInsertion :
    ∀ (fuel : Nat) (s : TState K V) (i : Nat) (s' : TState K V),
      RB.balanceAfterInsertion fuel s i = some s' → ObsPres s s' := by
  intro fuel
  induction fuel with
  | zero =>
    intro s i s' h
    rw [RB.balanceAfterInsertion] at h
    exact Option.noConfusion h
  | succ n ih =>
    intro s i s' h
    rw [RB.balanceAfterInsertion] at h
    simp only at h
    split at h
    · split at h
      · exact Option.noConfusion h
      · injection h with h2
        subst h2
        exact obs_setRed _ _ _
    · split at h
      · exact Option.noConfusion h
      · split at h
        · split at h
          · exact Option.noConfusion h
          · split at h
            · exact Option.noConfusion h
            · rename_i s2 heq2
              refine obs_trans ?_ (ih s2 i s' h)
              split at heq2
              · exact obs_balInsHelper heq2
              · exact obs_balInsHelper heq2
        · split at h
          · exact Option.noConfusion h
          · injection h with h2
            subst h2
            exact obs_setRed _ _ _

theorem obs_balDelHelper {s : TState K V} {i : Nat} {sib0 : Option Nat}
    {isl : Bool} {s' : TState K V}
    (h : RB.balDelHelper s i sib0 isl = some s') : ObsPres s s' := by
  rw [RB.balDelHelper.eq_def] at h
  simp only at h
  split at h
  · exact Option.noConfusion h
  · rename_i sA sib1 heqA
    have hA : ObsPres s sA := by
      split at heqA
      case isTrue =>
        split at heqA
        · exact Option.noConfusion heqA
        · rename_i sb hsb
          split at heqA
          · exact Option.noConfusion heqA
          · rename_i p hp
            split at heqA
            · exact Option.noConfusion heqA
            · rename_i p2 hp2
              split at heqA
              · exact Option.noConfusion heqA
              · rename_i s3 snd heqR
                split at heqA
                · exact Option.noConfusion heqA
                · rename_i p3 hp3
                  injection heqA with hpair
                  injection hpair with h1 h2
                  subst h1
                  refine obs_trans (obs_setRed s sb false)
                    (obs_trans (obs_setRed (setRed s sb false) p true) ?_)
                  split at heqR
                  · exact obs_rotateRightLinks heqR
                  · exact obs_rotateLeftLinks heqR
      case isFalse =>
        injection heqA with hpair
        injection hpair with h1 h2
        subst h1
        exact obs_rfl s
    split at h
    · exact Option.noConfusion h
    · rename_i sb hsb1
      split at h
      · injection h with h2
        subst h2
        exact obs_trans hA (obs_setRed _ _ _)
      · split at h
        · exact Option.noConfusion h
        · rename_i sE sb2 heqE
          have hE : ObsPres s sE := by
            split at heqE
            case isTrue =>
              split at heqE
              · split at heqE
                · exact Option.noConfusion heqE
                · rename_i sB heqB
                  split at heqE
                  · exact Option.noConfusion heqE
                  · rename_i sD snd heqD
                    split at heqE
                    · exact Option.noConfusion heqE
                    · rename_i p hp
                      split at heqE
                      · exact Option.noConfusion heqE
                      · rename_i sb' hsbp
                        injection heqE with hpair
                        injection hpair with h1 h2
                        subst h1
                        have hB : ObsPres s sB := by
                          split at heqB
                          · exact Option.noConfusion heqB
                          · injection heqB with hB2
                            rw [← hB2]
                            exact hA
                        exact obs_trans hB
                          (obs_trans (obs_setRed sB _ true) (obs_rotateLeftLinks heqD))
              · injection heqE with hpair
                injection hpair with h1 h2
                subst h1
                exact hA
            case isFalse =>
              split at heqE
              · split at heqE
                · exact Option.noConfusion heqE
                · rename_i sB heqB
                  split at heqE
                  · exact Option.noConfusion heqE
                  · rename_i sD snd heqD
                    split at heqE
                    · exact Option.noConfusion heqE
                    · rename_i p hp
                      split at heqE
                      · exact Option.noConfusion heqE
                      · rename_i sb' hsbp
                        injection heqE with hpair
                        injection hpair with h1 h2
                        subst h1
                        have hB : ObsPres s sB := by
                          split at heqB
                          · exact Option.noConfusion heqB
                          · rename_i l hl
                            injection heqB with hB2
                            rw [← hB2]
                            exact obs_trans hA (obs_setRed sA l false)
                        exact obs_trans hB
                          (obs_trans (obs_setRed sB _ true) (obs_rotateRightLinks heqD))
              · injection heqE with hpair
                injection hpair with h1 h2
                subst h1
                exact hA
          split at h
          · exact Option.noConfusion h
          · rename_i p hp
            split at h
            · exact Option.noConfusion h
            · rename_i sH heqH
              have hH : ObsPres s sH := by
                split at heqH
                case isTrue =>
                  split at heqH
                  · exact Option.noConfusion heqH
                  · injection heqH with h2
                    rw [← h2]
                    exact obs_trans hE (obs_trans (obs_setRed sE sb2 ((getN sE p).red))
                      (obs_setRed (setRed sE sb2 ((getN sE p).red)) p false))
                case isFalse =>
                  split at heqH
                  · exact Option.noConfusion heqH
                  · rename_i r hr
                    injection heqH with h2
                    rw [← h2]
                    exact obs_trans hE (obs_trans (obs_setRed sE sb2 ((getN sE p).red))
                      (obs_trans (obs_setRed (setRed sE sb2 ((getN sE p).red)) p false)
                        (obs_setRed (setRed (setRed sE sb2 ((getN sE p).red)) p false) r false)))
              split at h
              · exact Option.noConfusion h
              · rename_i p2 hp2
                split at h
                · exact Option.noConfusion h
                · rename_i sI snd heqI
                  injection h with h2
                  subst h2
                  refine obs_trans hH ?_
                  split at heqI
                  · exact obs_rotateRightLinks heqI
                  · exact obs_rotateLeftLinks heqI

theorem obs_balanceAfterDeletion :
    ∀ (fuel : Nat) (s : TState K V) (i : Nat) (s' : TState K V),
      RB.balanceAfterDeletion fuel s i = some s' → ObsPres s s' := by
  intro fuel
  induction fuel with
  | zero =>
    intro s i s' h
    rw [RB.balanceAfterDeletion] at h
    exact Option.noConfusion h
  | succ n ih =>
    intro s i s' h
    rw [RB.balanceAfterDeletion] at h
    simp only at h
    split at h
    · split at h
      · exact Option.noConfusion h
      · split at h
        · exact Option.noConfusion h
        · rename_i s2 heq2
          refine obs_trans ?_ (ih s2 i s' h)
          split at heq2
          · exact obs_balDelHelper heq2
          · exact obs_balDelHelper heq2
    · injection h with h2
      subst h2
      exact obs_setRed _ _ _

theorem inUseCount_updN_dead (s : TState K V) (i : Nat) (g : TNode K V → TNode K V)
    (hg : (g (getN s i)).in_use = false) :
    inUseCount (updN s i g) + (if (getN s i).in_use = true then 1 else 0) = inUseCount s := by
  by_cases hb : i < s.nodes.size
  · have hsame : (updN s i g).nodes.toList = s.nodes.toList.set i (g (getN s i)) := by
      simp [updN, Array.setD, hb]
    have hlen : i < s.nodes.toList.length := by simpa using hb
    have hc := countP_set_aux (fun n => n.in_use) s.nodes.toList i (g (getN s i)) hlen
    rw [← getN_eq_toListGet s i hlen] at hc
    rw [inUseCount, inUseCount, hsame]
    rw [hg] at hc
    by_cases ho : (getN s i).in_use = true <;> simp [ho] at hc ⊢ <;> omega
  · rw [updN_oob s i g (Nat.not_lt.mp hb), getN_dead_of_oob s i hb]
    simp

theorem avlDealloc_count (s : TState K V) (i : Nat) :
    inUseCount (AVL.deallocateNode s i) + (if (getN s i).in_use = true then 1 else 0) =
      inUseCount s :=
  inUseCount_updN_dead s i
    (fun n => { n with in_use := false, height := 0, left := none, parent := none, right := s.freeNodes }) rfl

theorem rbDealloc_count (s : TState K V) (i : Nat) :
    inUseCount (RB.deallocateNode s i) + (if (getN s i).in_use = true then 1 else 0) =
      inUseCount s :=
  inUseCount_updN_dead s i
    (fun n => { n with in_use := false, red := false, left := none, parent := none, right := s.freeNodes }) rfl

theorem avlDealloc_size (s : TState K V) (i : Nat) :
    (AVL.deallocateNode s i).size = s.size := rfl

theorem avlDealloc_capacity (s : TState K V) (i : Nat) :
    (AVL.deallocateNode s i).capacity = s.capacity := rfl

theorem rbDealloc_size (s : TState K V) (i : Nat) :
    (RB.deallocateNode s i).size = s.size := rfl

theorem rbDealloc_capacity (s : TState K V) (i : Nat) :
    (RB.deallocateNode s i).capacity = s.capacity := rfl

/-- What `AVLTree::allocateNode` guarantees: unchanged size counter and
capacity, at most one more occupied slot, and the returned slot occupied
unless it lies outside the arena. -/
theorem avl_alloc_spec {s s1 : TState K V} {hd : Nat}
    (heq : AVL.allocateNode s = some (s1, hd)) :
    s1.size = s.size ∧ s1.capacity = s.capacity ∧ s1.nodes.size = s.nodes.size ∧
      inUseCount s1 ≤ inUseCount s + 1 ∧
      (hd < s.nodes.size → (getN s1 hd).in_use = true) ∧
      (¬hd < s.nodes.size → inUseCount s1 = inUseCount s) := by
  rw [AVL.allocateNode] at heq
  split at heq
  · exact Option.noConfusion heq
  · rename_i h0 hfn
    injection heq with hpair
    injection hpair with h1 h2
    subst h2
    rw [← h1]
    refine ⟨rfl, rfl, updN_nodes_size _ _ _, ?_, ?_, ?_⟩
    · exact inUseCount_updN_le _ _ _
    · intro hb
      rw [getN_updN_self ({ s with freeNodes := (getN s h0).right }) h0 _ hb]
    · intro hb
      rw [updN_oob ({ s with freeNodes := (getN s h0).right }) h0 _ (Nat.not_lt.mp hb)]
      rfl

/-- Mirror of `avl_alloc_spec` for `RBTree::allocateNode`. -/
theorem rb_alloc_spec {s s1 : TState K V} {hd : Nat}
    (heq : RB.allocateNode s = some (s1, hd)) :
    s1.size = s.size ∧ s1.capacity = s.capacity ∧ s1.nodes.size = s.nodes.size ∧
      inUseCount s1 ≤ inUseCount s + 1 ∧
      (hd < s.nodes.size → (getN s1 hd).in_use = true) ∧
      (¬hd < s.nodes.size → inUseCount s1 = inUseCount s) := by
  rw [RB.allocateNode] at heq
  split at heq
  · exact Option.noConfusion heq
  · rename_i h0 hfn
    injection heq with hpair
    injection hpair with h1 h2
    subst h2
    rw [← h1]
    refine ⟨rfl, rfl, updN_nodes_size _ _ _, ?_, ?_, ?_⟩
    · exact inUseCount_updN_le _ _ _
    · intro hb
      rw [getN_updN_self ({ s with freeNodes := (getN s h0).right }) h0 _ hb]
    · intro hb
      rw [updN_oob ({ s with freeNodes := (getN s h0).right }) h0 _ (Nat.not_lt.mp hb)]
      rfl

theorem inUseCount_withSize (s : TState K V) (n : Nat) :
    inUseCount { s with size := n } = inUseCount s := rfl

theorem size_withSize (s : TState K V) (n : Nat) :
    ({ s with size := n } : TState K V).size = n := rfl

theorem capacity_withSize (s : TState K V) (n : Nat) :
    ({ s with size := n } : TState K V).capacity = s.capacity := rfl

/-- `AVLTree::insert` preserves the C3 size invariant and never changes
the capacity. -/
theorem avl_insert_sizeInv [LinearOrder K] {fuel : Nat} {s : TState K V} {k : K} {v : V}
    {b : Bool} {s' : TState K V} (hs : SizeInv s)
    (h : AVL.insert fuel s k v = some (b, s')) :
    SizeInv s' ∧ s'.capacity = s.capacity := by
  rw [AVL.insert.eq_def] at h
  split at h
  · injection h with hpair
    injection hpair with hb hst
    subst hst
    exact ⟨hs, rfl⟩
  · rename_i hfull
    split at h
    · exact Option.noConfusion h
    · rename_i s1 hd heqAl
      obtain ⟨hsz1, hcap1, hns1, hcnt1, hin1, hoob1⟩ := avl_alloc_spec heqAl
      obtain ⟨hsA, hsB⟩ := hs
      simp only at h
      set s2 := updN s1 hd (fun n => { n with key := k, value := v }) with hs2
      have hc2 : inUseCount s2 = inUseCount s1 := inUseCount_updN_preserve s1 hd _ rfl
      have hz2 : s2.size = s1.size := updN_size _ _ _
      have hp2 : s2.capacity = s1.capacity := updN_capacity _ _ _
      split at h
      · injection h with hpair
        injection hpair with hb hst
        subst hst
        refine ⟨⟨?_, ?_⟩, ?_⟩
        · show inUseCount s2 ≤ s2.size + 1
          omega
        · show s2.size + 1 ≤ s2.capacity
          omega
        · show s2.capacity = s.capacity
          omega
      · split at h
        · exact Option.noConfusion h
        · injection h with hpair
          injection hpair with hb hst
          subst hst
          have hdc := avlDealloc_count s2 hd
          refine ⟨⟨?_, ?_⟩, ?_⟩
          · rw [avlDealloc_size]
            by_cases hb2 : hd < s.nodes.size
            · have hu : (getN s2 hd).in_use = true := by
                rw [hs2, getN_updN_self s1 hd _ (by rw [hns1]; exact hb2)]
                exact hin1 hb2
              rw [hu] at hdc
              simp at hdc
              omega
            · have hs21 : s2 = s1 := by
                rw [hs2]
                exact updN_oob s1 hd _ (by rw [hns1]; exact Nat.not_lt.mp hb2)
              have hu : (getN s2 hd).in_use = false := by
                rw [hs21]
                exact getN_dead_of_oob s1 hd (by rw [hns1]; exact hb2)
              rw [hu] at hdc
              simp at hdc
              have ho1 := hoob1 hb2
              omega
          · rw [avlDealloc_size, avlDealloc_capacity]
            omega
          · rw [avlDealloc_capacity]
            omega
        · rename_i p hdesc
          split at h
          · exact Option.noConfusion h
          · rename_i s5 heqB
            injection h with hpair
            injection hpair with hb hst
            subst hst
            have hobs : ObsPres s2 s5 := by
              refine obs_trans ?_ (obs_balance fuel _ _ s5 heqB)
              split
              · exact obs_trans (obs_setParent s2 hd (some p)) (obs_setLeft _ p (some hd))
              · exact obs_trans (obs_setParent s2 hd (some p)) (obs_setRight _ p (some hd))
            obtain ⟨hoc, hoz, hop, -⟩ := hobs
            refine ⟨⟨?_, ?_⟩, ?_⟩
            · show inUseCount s5 ≤ s5.size + 1
              omega
            · show s5.size + 1 ≤ s5.capacity
              omega
            · show s5.capacity = s.capacity
              omega

/-- `RBTree::insert` preserves the C3 size invariant and never changes
the capacity. -/
theorem rb_insert_sizeInv [LinearOrder K] {fuel : Nat} {s : TState K V} {k : K} {v : V}
    {b : Bool} {s' : TState K V} (hs : SizeInv s)
    (h : RB.insert fuel s k v = some (b, s')) :
    SizeInv s' ∧ s'.capacity = s.capacity := by
  rw [RB.insert.eq_def] at h
  split at h
  · injection h with hpair
    injection hpair with hb hst
    subst hst
    exact ⟨hs, rfl⟩
  · rename_i hfull
    split at h
    · exact Option.noConfusion h
    · rename_i s1 hd heqAl
      obtain ⟨hsz1, hcap1, hns1, hcnt1, hin1, hoob1⟩ := rb_alloc_spec heqAl
      obtain ⟨hsA, hsB⟩ := hs
      simp only at h
      set s2 := updN s1 hd (fun n => { n with key := k, value := v }) with hs2
      have hc2 : inUseCount s2 = inUseCount s1 := inUseCount_updN_preserve s1 hd _ rfl
      have hz2 : s2.size = s1.size := updN_size _ _ _
      have hp2 : s2.capacity = s1.capacity := updN_capacity _ _ _
      split at h
      · injection h with hpair
        injection hpair with hb hst
        subst hst
        refine ⟨⟨?_, ?_⟩, ?_⟩
        · show inUseCount (setRed (setRootP s2 (some hd)) hd false) ≤
            (setRed (setRootP s2 (some hd)) hd false).size + 1
          simp
          omega
        · show (setRed (setRootP s2 (some hd)) hd false).size + 1 ≤
            (setRed (setRootP s2 (some hd)) hd false).capacity
          simp
          omega
        · show (setRed (setRootP s2 (some hd)) hd false).capacity = s.capacity
          simp
          omega
      · split at h
        · exact Option.noConfusion h
        · injection h with hpair
          injection hpair with hb hst
          subst hst
          have hdc := rbDealloc_count s2 hd
          refine ⟨⟨?_, ?_⟩, ?_⟩
          · rw [rbDealloc_size]
            by_cases hb2 : hd < s.nodes.size
            · have hu : (getN s2 hd).in_use = true := by
                rw [hs2, getN_updN_self s1 hd _ (by rw [hns1]; exact hb2)]
                exact hin1 hb2
              rw [hu] at hdc
              simp at hdc
              omega
            · have hs21 : s2 = s1 := by
                rw [hs2]
                exact updN_oob s1 hd _ (by rw [hns1]; exact Nat.not_lt.mp hb2)
              have hu : (getN s2 hd).in_use = false := by
                rw [hs21]
                exact getN_dead_of_oob s1 hd (by rw [hns1]; exact hb2)
              rw [hu] at hdc
              simp at hdc
              have ho1 := hoob1 hb2
              omega
          · rw [rbDealloc_size, rbDealloc_capacity]
            omega
          · rw [rbDealloc_capacity]
            omega
        · rename_i p hdesc
          split at h
          · exact Option.noConfusion h
          · rename_i s5 heqB
            injection h with hpair
            injection hpair with hb hst
            subst hst
            have hobs : ObsPres s2 s5 := by
              refine obs_trans ?_ (obs_balanceAfterInsertion fuel _ hd s5 heqB)
              split
              · exact obs_trans (obs_setParent s2 hd (some p)) (obs_setLeft _ p (some hd))
              · exact obs_trans (obs_setParent s2 hd (some p)) (obs_setRight _ p (some hd))
            obtain ⟨hoc, hoz, hop, -⟩ := hobs
            refine ⟨⟨?_, ?_⟩, ?_⟩
            · show inUseCount s5 ≤ s5.size + 1
              omega
            · show s5.size + 1 ≤ s5.capacity
              omega
            · show s5.capacity = s.capacity
              omega

/-- `AVLTree::erase` preserves the C3 size invariant and never changes
the capacity; a successful erase cannot wrap the size counter because
the erased node itself witnesses `1 ≤ inUseCount s ≤ s.size`. -/
theorem avl_erase_sizeInv [LinearOrder K] {fuel : Nat} {s : TState K V} {k : K}
    {b : Bool} {s' : TState K V} (hs : SizeInv s)
    (h : AVL.erase fuel s k = some (b, s')) :
    SizeInv s' ∧ s'.capacity = s.capacity := by
  rw [AVL.erase.eq_def] at h
  split at h
  · exact Option.noConfusion h
  · injection h with hpair
    injection hpair with hb hst
    subst hst
    exact ⟨hs, rfl⟩
  · rename_i i hfind
    have hin : (getN s i).in_use = true := findNodeF_in_use hfind
    have hpos : 1 ≤ inUseCount s := inUseCount_pos s i hin
    obtain ⟨hsA, hsB⟩ := hs
    simp only at h
    split at h
    · exact Option.noConfusion h
    · rename_i sF par heqS
      have hF : ObsPres s sF := by
        split at heqS
        · injection heqS with hpair
          injection hpair with h1 h2
          rw [← h1]
          exact obs_transplant s i _
        · split at heqS
          · injection heqS with hpair
            injection hpair with h1 h2
            rw [← h1]
            exact obs_transplant s i _
          · split at heqS
            · exact Option.noConfusion heqS
            · exact Option.noConfusion heqS
            · rename_i m hmin
              split at heqS
              · exact Option.noConfusion heqS
              · rename_i sA heqA
                have hA : ObsPres s sA := by
                  split at heqA
                  · split at heqA
                    · injection heqA with h1
                      rw [← h1]
                      exact obs_rfl s
                    · rename_i c hc
                      injection heqA with h1
                      rw [← h1]
                      exact obs_setParent s c (some m)
                  · split at heqA
                    · exact Option.noConfusion heqA
                    · rename_i j hj
                      injection heqA with h1
                      rw [← h1]
                      exact obs_trans (obs_transplant s m _)
                        (obs_trans (obs_setRight _ m _) (obs_setParent _ j (some m)))
                split at heqS
                · exact Option.noConfusion heqS
                · rename_i j hj
                  injection heqS with hpair
                  injection hpair with h1 h2
                  rw [← h1]
                  exact obs_trans hA (obs_trans (obs_transplant sA i (some m))
                    (obs_trans (obs_setLeft _ m _) (obs_setParent _ j (some m))))
      split at h
      · exact Option.noConfusion h
      · rename_i sH heqB
        injection h with hpair
        injection hpair with hb hst
        subst hst
        obtain ⟨hoc, hoz, hop, hpt⟩ := hF
        have hinF : (getN sF i).in_use = true := by
          rw [hpt i]
          exact hin
        have hdc := avlDealloc_count sF i
        rw [hinF] at hdc
        simp at hdc
        have hobs2 : ObsPres (AVL.deallocateNode sF i) sH := obs_balance fuel _ par sH heqB
        obtain ⟨hoc2, hoz2, hop2, -⟩ := hobs2
        have hcapG : (AVL.deallocateNode sF i).capacity = sF.capacity := avlDealloc_capacity _ _
        have hszG : (AVL.deallocateNode sF i).size = sF.size := avlDealloc_size _ _
        have hszH : sH.size = s.size := by omega
        have hdec : AVL.decSize sH.size = s.size - 1 := by
          rw [hszH, AVL.decSize, if_neg (by omega)]
        refine ⟨⟨?_, ?_⟩, ?_⟩
        · show inUseCount sH ≤ AVL.decSize sH.size
          rw [hdec]
          omega
        · show AVL.decSize sH.size ≤ sH.capacity
          rw [hdec]
          omega
        · show sH.capacity = s.capacity
          omega

/-- `RBTree::erase` preserves the C3 size invariant and never changes
the capacity. -/
theorem rb_erase_sizeInv [LinearOrder K] {fuel : Nat} {s : TState K V} {k : K}
    {b : Bool} {s' : TState K V} (hs : SizeInv s)
    (h : RB.erase fuel s k = some (b, s')) :
    SizeInv s' ∧ s'.capacity = s.capacity := by
  rw [RB.erase.eq_def] at h
  split at h
  · exact Option.noConfusion h
  · injection h with hpair
    injection hpair with hb hst
    subst hst
    exact ⟨hs, rfl⟩
  · rename_i i hfind
    have hin : (getN s i).in_use = true := findNodeF_in_use hfind
    have hpos : 1 ≤ inUseCount s := inUseCount_pos s i hin
    obtain ⟨hsA, hsB⟩ := hs
    simp only at h
    split at h
    · exact Option.noConfusion h
    · rename_i sG child origRed heqS
      have hF : ObsPres s sG := by
        split at heqS
        · injection heqS with hpair
          injection hpair with h1 h2
          rw [← h1]
          exact obs_transplant s i _
        · split at heqS
          · injection heqS with hpair
            injection hpair with h1 h2
            rw [← h1]
            exact obs_transplant s i _
          · split at heqS
            · exact Option.noConfusion heqS
            · exact Option.noConfusion heqS
            · rename_i m hmin
              split at heqS
              · exact Option.noConfusion heqS
              · rename_i sA heqA
                have hA : ObsPres s sA := by
                  split at heqA
                  · split at heqA
                    · injection heqA with h1
                      rw [← h1]
                      exact obs_rfl s
                    · rename_i c hc
                      injection heqA with h1
                      rw [← h1]
                      exact obs_setParent s c (some m)
                  · split at heqA
                    · exact Option.noConfusion heqA
                    · rename_i j hj
                      injection heqA with h1
                      rw [← h1]
                      exact obs_trans (obs_transplant s m _)
                        (obs_trans (obs_setRight _ m _) (obs_setParent _ j (some m)))
                split at heqS
                · exact Option.noConfusion heqS
                · rename_i j hj
                  injection heqS with hpair
                  injection hpair with h1 h2
                  rw [← h1]
                  exact obs_trans hA (obs_trans (obs_transplant sA i (some m))
                    (obs_trans (obs_setLeft _ m _)
                      (obs_trans (obs_setParent _ j (some m)) (obs_setRed _ m _))))
      split at h
      · exact Option.noConfusion h
      · rename_i sI heqFix
        injection h with hpair
        injection hpair with hb hst
        subst hst
        obtain ⟨hoc, hoz, hop, hpt⟩ := hF
        have hinF : (getN sG i).in_use = true := by
          rw [hpt i]
          exact hin
        have hdc := rbDealloc_count sG i
        rw [hinF] at hdc
        simp at hdc
        have hobs2 : ObsPres (RB.deallocateNode sG i) sI := by
          split at heqFix
          · split at heqFix
            · injection heqFix with h1
              rw [← h1]
              exact obs_rfl _
            · exact obs_balanceAfterDeletion fuel _ _ sI heqFix
          · injection heqFix with h1
            rw [← h1]
            exact obs_rfl _
        obtain ⟨hoc2, hoz2, hop2, -⟩ := hobs2
        have hcapG : (RB.deallocateNode sG i).capacity = sG.capacity := rbDealloc_capacity _ _
        have hszG : (RB.deallocateNode sG i).size = sG.size := rbDealloc_size _ _
        have hszH : sI.size = s.size := by omega
        have hdec : AVL.decSize sI.size = s.size - 1 := by
          rw [hszH, AVL.decSize, if_neg (by omega)]
        refine ⟨⟨?_, ?_⟩, ?_⟩
        · show inUseCount sI ≤ AVL.decSize sI.size
          rw [hdec]
          omega
        · show AVL.decSize sI.size ≤ sI.capacity
          rw [hdec]
          omega
        · show sI.capacity = s.capacity
          omega

theorem inUseCount_mkState (cap : Nat) : inUseCount (mkState K V cap) = 0 := by
  rw [inUseCount]
  rw [List.countP_eq_zero]
  intro a ha
  rw [mkState] at ha
  rw [Array.toList_ofFn] at ha
  rw [List.mem_ofFn] at ha
  obtain ⟨i, hi⟩ := ha
  rw [← hi]
  simp

/-- `FixedMap::insert` preserves the C3 size invariant, by dispatch to
the strategy lemmas. -/
theorem mapInsert_sizeInv [LinearOrder K] {fuel : Nat} {m m1 : FMap K V} {k : K} {v : V}
    {b : Bool} (hs : SizeInv m.st) (h : mapInsert fuel m k v = some (b, m1)) :
    SizeInv m1.st ∧ m1.st.capacity = m.st.capacity := by
  rw [mapInsert] at h
  split at h
  · exact Option.noConfusion h
  · rename_i b0 st2 heq
    injection h with hpair
    injection hpair with hb hm
    rw [← hm]
    show SizeInv st2 ∧ st2.capacity = m.st.capacity
    cases hst : m.strat
    case RedBlack =>
      rw [hst] at heq
      simp only [treeInsert] at heq
      exact rb_insert_sizeInv hs heq
    case AVL =>
      rw [hst] at heq
      simp only [treeInsert] at heq
      exact avl_insert_sizeInv hs heq

/-- `FixedMap::erase` preserves the C3 size invariant. -/
theorem mapErase_sizeInv [LinearOrder K] {fuel : Nat} {m m1 : FMap K V} {k : K}
    {b : Bool} (hs : SizeInv m.st) (h : mapErase fuel m k = some (b, m1)) :
    SizeInv m1.st ∧ m1.st.capacity = m.st.capacity := by
  rw [mapErase] at h
  split at h
  · exact Option.noConfusion h
  · rename_i b0 st2 heq
    injection h with hpair
    injection hpair with hb hm
    rw [← hm]
    show SizeInv st2 ∧ st2.capacity = m.st.capacity
    cases hst : m.strat
    case RedBlack =>
      rw [hst] at heq
      simp only [treeErase] at heq
      exact rb_erase_sizeInv hs heq
    case AVL =>
      rw [hst] at heq
      simp only [treeErase] at heq
      exact avl_erase_sizeInv hs heq

/-- The C3 size invariant holds along any sequence of public map
operations. -/
theorem runOps_sizeInv [LinearOrder K] {fuel : Nat} :
    ∀ (ops : List (MapOp K V)) (m m' : FMap K V),
      SizeInv m.st → runOps fuel m ops = some m' →
      SizeInv m'.st ∧ m'.st.capacity = m.st.capacity := by
  intro ops
  induction ops with
  | nil =>
    intro m m' hs h
    rw [runOps] at h
    injection h with h1
    rw [← h1]
    exact ⟨hs, rfl⟩
  | cons op rest ih =>
    intro m m' hs h
    rw [runOps.eq_def] at h
    cases op with
    | ins k v =>
      simp only at h
      split at h
      · exact Option.noConfusion h
      · rename_i b m1 heq
        obtain ⟨h1, h2⟩ := mapInsert_sizeInv hs heq
        obtain ⟨h3, h4⟩ := ih m1 m' h1 h
        exact ⟨h3, h4.trans h2⟩
    | del k =>
      simp only at h
      split at h
      · exact Option.noConfusion h
      · rename_i b m1 heq
        obtain ⟨h1, h2⟩ := mapErase_sizeInv hs heq
        obtain ⟨h3, h4⟩ := ih m1 m' h1 h
        exact ⟨h3, h4.trans h2⟩

/-- Both strategies short-circuit `insert` on a full arena, returning
failure with the state untouched. -/
theorem treeInsert_full [LinearOrder K] (t : TreeType) (fuel : Nat) (s : TState K V)
    (k : K) (v : V) (hge : s.size ≥ s.capacity) :
    treeInsert t fuel s k v = some (false, s) := by
  cases t
  · simp only [treeInsert]
    rw [RB.insert.eq_def, if_pos hge]
  · simp only [treeInsert]
    rw [AVL.insert.eq_def, if_pos hge]

/-- `FixedMap::insert` on a full map reports failure and returns the map
unchanged. -/
theorem mapInsert_full [LinearOrder K] (fuel : Nat) (m : FMap K V) (k : K) (v : V)
    (hge : m.st.size ≥ m.st.capacity) :
    mapInsert fuel m k v = some (false, m) := by
  rw [mapInsert, treeInsert_full m.strat fuel m.st k v hge]

/-- C3: for every sequence of insert/erase operations run on a freshly
constructed map of capacity `cap` (either strategy), the size counter
never exceeds `cap`; and once the map holds `cap` entries, a further
insert reports failure and returns the map unchanged, so the size stays
`cap`. -/
theorem c3_capacity_never_exceeded [LinearOrder K] (t : TreeType) (cap fuel : Nat)
    (ops : List (MapOp K V)) (m' : FMap K V)
    (h : runOps fuel (mkMap K V t cap) ops = some m') :
    mapSize m' ≤ cap ∧
      (mapSize m' = cap → ∀ (k : K) (v : V), mapInsert fuel m' k v = some (false, m')) := by
  have hbase : SizeInv (mkMap K V t cap).st := by
    constructor
    · show inUseCount (mkState K V cap) ≤ 0
      rw [inUseCount_mkState]
    · show (0 : Nat) ≤ cap
      exact Nat.zero_le cap
  obtain ⟨hinv, hcap⟩ := runOps_sizeInv ops (mkMap K V t cap) m' hbase h
  have hcap2 : m'.st.capacity = cap := hcap
  constructor
  · show m'.st.size ≤ cap
    have := hinv.2
    omega
  · intro hfullk k v
    have hsz : m'.st.size = cap := hfullk
    exact mapInsert_full fuel m' k v (by omega)

/-- C3 witness: the concrete run `c3ops` on a capacity-2 Red-Black map
terminates in `c3m`, whose size respects the bound; the full-map clause
is inherited from the theorem. -/
theorem c3_capacity_witness :
    runOps 16 (mkMap Nat Nat .RedBlack 2) c3ops = some c3m ∧
      (mapSize c3m ≤ 2 ∧
        (mapSize c3m = 2 → ∀ (k v : Nat), mapInsert 16 c3m k v = some (false, c3m))) :=
  ⟨rfl, c3_capacity_never_exceeded .RedBlack 2 16 c3ops c3m rfl⟩

/-- Half of C8 that is settled here: `FixedMap::extract` of an absent
key surfaces the `KeyNotFound` hard error (the
`std::out_of_range("Key not found")` throw) instead of returning a
pair. -/
theorem mapExtract_absent [LinearOrder K] (fuel : Nat) (m : FMap K V) (k : K)
    (h : mapFind fuel m k = some none) :
    mapExtract fuel m k = some none := by
  rw [mapExtract, h]

end Counting

/-! ## Concrete refutations -/

/-- C1: the AVL height invariant does not survive `erase`.  After
insert 2, 1, 3 and erase 2 the stored-height recurrence fails (the new
root keeps height 1 although it has a child): `AVLTree::erase` passes
the freshly deallocated node to `balance` when the successor was the
erased node's right child, so no ancestor height is refreshed.  After
the second run even the structural balance is gone: a node's subtree
heights differ by 2. -/
theorem c1_avl_invariant_violated :
    ((runOps 50 (mkMap Nat Nat .AVL 4) c1ops).map fun m => avlInv m.st) = some false ∧
    ((runOps 50 (mkMap Nat Nat .AVL 10) c1ops').map fun m => realBalanced m.st) = some false := by
  constructor
  · rfl
  · rfl

/-- C2: the Red-Black invariants survive neither insertion nor erasure.
Inserting 1..8 ascending leaves a red node with a red child, because
`balanceAfterInsertion`'s helper lambda receives `node` by value, so the
red-uncle recoloring case never restarts the loop from the grandparent.
Inserting 10, 20, 30, 40 and erasing 10 leaves unequal black counts,
because `erase` skips `balanceAfterDeletion` whenever the replacing
child is null. -/
theorem c2_rb_invariant_violated :
    ((runOps 50 (mkMap Nat Nat .RedBlack 8) c2ops).map fun m => rbInv 50 m.st) = some false ∧
    ((runOps 50 (mkMap Nat Nat .RedBlack 8) c2ops').map fun m => rbInv 50 m.st) = some false := by
  constructor
  · rfl
  · rfl

/-- C4: on a reachable Red-Black map, `erase` of a present key does not
return at all.  After `c4prep`, key 2 is present (value 102), but
`erase(2)` dereferences a null sibling: the deletion fix-up removes
black node 2 whose child is node 1; the first fix-up iteration runs
case 3 and case 4 and rotates the parent, but the helper lambda's
by-value `node` can never advance the loop, and on the second iteration
`node->parent->right` is null, so the case-2 test reads
`sibling->left` through a null pointer (modelled `none`; independent of
fuel). -/
theorem c4_erase_crashes_on_reachable_map :
    ((runOps 300 (mkMap Nat Nat .RedBlack 7) c4prep).map fun m =>
      (mapFind 300 m 2, mapErase 300 m 2, mapErase 5000 m 2)) =
      some (some (some 102), none, none) := by
  rfl

/-- C7: `merge` silently drops entries once the destination is full:
merging a map holding key 1 into a full capacity-1 map leaves key 1
absent from the destination (the per-entry `insert` returns
CapacityExhausted-false and `merge` ignores it), contradicting "inserts
into the destination every entry of other whose key the destination
does not already contain".  With sufficient capacity the claim's
Scenario D behaves as stated, existing key 2 kept. -/
theorem c7_merge_drops_when_full :
    ((c7dst.bind fun d => c7src.bind fun s => mapMerge 300 d s).map fun d' =>
      (mapFind 300 d' 1, mapFind 300 d' 2, mapSize d')) =
      some (some none, some (some 200), 1) ∧
    ((c7B.bind fun b => c7A.bind fun a => mapMerge 300 b a).map fun b' =>
      (mapFind 300 b' 1, mapFind 300 b' 2, mapFind 300 b' 3, mapSize b')) =
      some (some (some "one"), some (some "TWO"), some (some "three"), 3) := by
  constructor
  · rfl
  · rfl

/-- C9: `operator[]` on a full map with an absent key crashes instead of
creating an entry: the internal `insert` fails on capacity, the second
`find` returns null, and `operator[]` returns `*find(key)` — a null
dereference (modelled `none`).  On the same map a present key returns
its value, and with a free slot an absent key does get a
default-constructed entry and size grows by one. -/
theorem c9_index_crashes_at_capacity :
    (c9full.map fun m => (mapIndex 50 m 2, (mapIndex 50 m 1).map (·.1))) =
      some (none, some 100) ∧
    (c9room.map fun m => (mapIndex 50 m 2).map fun p => (p.1, mapSize p.2, mapFind 50 p.2 2)) =
      some (some (0, 2, some (some 0))) := by
  constructor
  · rfl
  · rfl

/-- C10, counterexample: the claim "every public operation acquires that
instance's lock for the duration of the call" fails on the code:
`begin` acquires no lock at all, and `merge` holds only the other map's
lock. -/
theorem c10_lock_claim_fails :
    entryLocks PubOp.beginOp ≠ [WhichLock.selfLock] ∧
    entryLocks PubOp.mergeOp ≠ [WhichLock.selfLock] := by
  exact ⟨by decide, by decide⟩

/-- C10, amended: `insert`, `erase`, `find`, `clear`, `extract`, `size`
and `empty` each acquire exactly the receiver's lock at entry and
acquire nothing further on the call path; `begin` acquires no lock;
`merge` acquires only the other map's lock at entry and re-acquires the
receiver's lock inside each nested `insert` while still holding it. -/
theorem c10_locking_as_implemented :
    entryLocks PubOp.insertOp = [WhichLock.selfLock] ∧
    entryLocks PubOp.eraseOp = [WhichLock.selfLock] ∧
    entryLocks PubOp.findOp = [WhichLock.selfLock] ∧
    entryLocks PubOp.clearOp = [WhichLock.selfLock] ∧
    entryLocks PubOp.extractOp = [WhichLock.selfLock] ∧
    entryLocks PubOp.sizeOp = [WhichLock.selfLock] ∧
    entryLocks PubOp.emptyOp = [WhichLock.selfLock] ∧
    nestedLocks PubOp.insertOp = [] ∧
    nestedLocks PubOp.eraseOp = [] ∧
    nestedLocks PubOp.findOp = [] ∧
    nestedLocks PubOp.clearOp = [] ∧
    nestedLocks PubOp.extractOp = [] ∧
    nestedLocks PubOp.sizeOp = [] ∧
    nestedLocks PubOp.emptyOp = [] ∧
    nestedLocks PubOp.beginOp = [] ∧
    entryLocks PubOp.beginOp = [] ∧
    entryLocks PubOp.mergeOp = [WhichLock.otherLock] ∧
    nestedLocks PubOp.mergeOp = [WhichLock.selfLock] := by
  decide

end ESTL
